import Mathlib

/-!
The Redis map type (`src/t_map.c`).

A shallow embedding of the map container of `t_map.c` (a dict from score
tokens to values paired with a skip list ordered by numeric score) and of the
commands built on it, followed by theorems about that embedding.

Conventions of the embedding

* A string object (`robj` of type `REDIS_STRING`) is a `String`.
* A `double` is a `Dbl`: NaN, the two infinities, or a finite value.  The
  file only ever compares doubles, so a finite double is kept as the rational
  number it denotes and the comparisons follow IEEE-754 (every ordered
  comparison with NaN is false).
* The skip list is its level-0 chain, in order, together with its `length`
  field.  A node pointer is a position in that chain (`nodePtr`), `NULL` is
  `none`.
* `int` arithmetic is written on `Int` and wrapped to 32 bits by `toInt32`.
* A C function that can abort or dereference `NULL` returns `Except Fault _`.
-/

namespace TMap

/-! ## Doubles -/

/-- A C `double`, as far as ordered comparison can tell. -/
inductive Dbl where
  | nan
  | ninf
  | fin (q : ℚ)
  | pinf
  deriving DecidableEq

namespace Dbl

/-- C `a < b`. -/
def lt : Dbl → Dbl → Bool
  | ninf, fin _ => true
  | ninf, pinf => true
  | fin _, pinf => true
  | fin a, fin b => decide (a < b)
  | _, _ => false

/-- C `a == b`. -/
def eq : Dbl → Dbl → Bool
  | ninf, ninf => true
  | pinf, pinf => true
  | fin a, fin b => decide (a = b)
  | _, _ => false

/-- C `a <= b`. -/
def le (a b : Dbl) : Bool := lt a b || eq a b

/-- C `a > b`. -/
def gt (a b : Dbl) : Bool := lt b a

/-- C `a >= b`. -/
def ge (a b : Dbl) : Bool := le b a

/-- C `isnan(a)`. -/
def isNaN : Dbl → Bool
  | nan => true
  | _ => false

end Dbl

/-! ## Objects, faults, replies -/

deriving instance DecidableEq for Except

/-- A Redis string object: a score token or a stored value. -/
abbrev robj := String

/-- Ways a command can stop without returning. -/
inductive Fault where
  | assertFailed
  | nullDeref
  deriving DecidableEq

/-- One item appended to the client's output buffer, as it goes on the
wire. -/
inductive Reply where
  | ok
  | nullbulk
  | syntaxerr
  | wrongtypeerr
  | error (msg : String)
  | longLong (n : Int)
  | double (d : Dbl)
  | bulk (o : robj)
  | multiBulkLen (n : Int)
  | deferredLen
  deriving DecidableEq

/-- The shared reply `:0\r\n`, the bytes `addReplyLongLong(c,0)` writes. -/
def Reply.czero : Reply := .longLong 0

/-- The shared reply `:1\r\n`, the bytes `addReplyLongLong(c,1)` writes. -/
def Reply.cone : Reply := .longLong 1

/-- The shared reply `*0\r\n`, the bytes of a multi-bulk length of 0. -/
def Reply.emptymultibulk : Reply := .multiBulkLen 0

/-! ## The dict (exact index) -/

/-- One entry of the dict: the score token and the value stored under it. -/
structure dictEntry where
  key : robj
  val : robj
  deriving DecidableEq

/-- Modelled from the spec: the Exact Index (`dict.c` and `zsetDictType` are
not part of the sources).  A table of entries with unique keys, compared
exactly; the key the map code hands it is the score *object* (`robj *score`,
the request token), not the parsed double, so two keys are equal when they
are the same string. -/
structure dict where
  table : List dictEntry
  deriving DecidableEq

/-- Modelled from the spec: `dictCreate`, the empty index. -/
def dictCreate : dict := { table := [] }

/-- Modelled from the spec: `dictFind`, `find(score) -> value|none`; the
entry stored under `key`, if any. -/
def dictFind (d : dict) (key : robj) : Option dictEntry :=
  d.table.find? (fun e => e.key == key)

/-- Modelled from the spec: `dictAdd`, `insert(score, value)`; adds an entry
and leaves the table alone when the key is already there (uniqueness is
enforced). -/
def dictAdd (d : dict) (key val : robj) : dict :=
  match dictFind d key with
  | some _ => d
  | none => { table := d.table ++ [{ key := key, val := val }] }

/-- Modelled from the spec: `update(score, newValue)`, the assignment
`dictGetEntryVal(de) = value` (a macro of `dict.h`, not part of the sources)
for the entry `de` found under `key`. -/
def dictSetEntryVal (d : dict) (key val : robj) : dict :=
  { table := d.table.map (fun e => if e.key == key then { e with val := val } else e) }

/-- Number of entries, the `used` counter behind `dictSize`. -/
def dictSize (d : dict) : Nat := d.table.length

/-! ## The skip list (ordered sequence structure) -/

/-- A skip-list node: its score and the value object it holds. -/
structure zskiplistNode where
  score : Dbl
  obj : robj
  deriving DecidableEq

/-- The skip list: the level-0 chain from `header->level[0].forward` to
`tail`, and the `length` field. -/
structure zskiplist where
  nodes : List zskiplistNode
  length : Nat
  deriving DecidableEq

/-- A non-NULL `zskiplistNode *`: the node `cur`, the nodes before it (nearest
first, reached through `backward`) and the nodes after it (reached through
`level[0].forward`). -/
structure nodePtr where
  before : List zskiplistNode
  cur : zskiplistNode
  after : List zskiplistNode
  deriving DecidableEq

/-- Successor link `ln->level[0].forward`. -/
def nodePtr.forward (p : nodePtr) : Option nodePtr :=
  match p.after with
  | [] => none
  | x :: xs => some { before := p.cur :: p.before, cur := x, after := xs }

/-- Predecessor link `ln->backward`; `NULL` on the first node. -/
def nodePtr.backward (p : nodePtr) : Option nodePtr :=
  match p.before with
  | [] => none
  | x :: xs => some { before := xs, cur := x, after := p.cur :: p.after }

/-- The chain after the assignment `ln->obj = value`. -/
def nodePtr.setObj (p : nodePtr) (value : robj) : List zskiplistNode :=
  p.before.reverse ++ { p.cur with obj := value } :: p.after

/-- Walk from a position: the pointer to the `k`-th node of `rest`, when
`before` are the nodes already passed. -/
def nodeAt : List zskiplistNode → List zskiplistNode → Nat → Option nodePtr
  | _, [], _ => none
  | before, x :: xs, 0 => some { before := before, cur := x, after := xs }
  | before, x :: xs, k + 1 => nodeAt (x :: before) xs k

/-- First node, `zsl->header->level[0].forward`. -/
def zslFirst (zsl : zskiplist) : Option nodePtr := nodeAt [] zsl.nodes 0

/-- Last node, `zsl->tail`. -/
def zslTail (zsl : zskiplist) : Option nodePtr :=
  nodeAt [] zsl.nodes (zsl.nodes.length - 1)

/-- Modelled from the spec: `compareStringObjects` (`object.c`, not part of
the sources), the values' natural byte-wise lexicographic ordering: negative,
zero or positive. -/
def compareChars : List Char → List Char → Int
  | [], [] => 0
  | [], _ :: _ => -1
  | _ :: _, [] => 1
  | a :: as, b :: bs =>
    if a.toNat < b.toNat then -1
    else if b.toNat < a.toNat then 1
    else compareChars as bs

/-- Modelled from the spec: `compareStringObjects` on string objects. -/
def compareStringObjects (a b : robj) : Int := compareChars a.data b.data

/-- Modelled from the spec: `zslCreate` (`t_zset.c`, not part of the
sources), the empty skip list. -/
def zslCreate : zskiplist := { nodes := [], length := 0 }

/-- Modelled from the spec: the chain part of `zslInsert`: the new node goes
after every node that is smaller in `(score, value)` order. -/
def zslInsertNodes (score : Dbl) (obj : robj) : List zskiplistNode → List zskiplistNode
  | [] => [{ score := score, obj := obj }]
  | x :: xs =>
    if x.score.lt score || (x.score.eq score && decide (compareStringObjects x.obj obj < 0)) then
      x :: zslInsertNodes score obj xs
    else
      { score := score, obj := obj } :: x :: xs

/-- Modelled from the spec: `zslInsert` (`t_zset.c`, not part of the
sources), `insert(score, value)`: a new node at the position determined by
`(score, value)` ordering, duplicates of a score tolerated, `length` raised by
one.  The returned node pointer is not used by the map code and is left
out. -/
def zslInsert (zsl : zskiplist) (score : Dbl) (obj : robj) : zskiplist :=
  { nodes := zslInsertNodes score obj zsl.nodes, length := zsl.length + 1 }

/-- Modelled from the spec: the search of `zslFirstWithScore`, the first
node of the chain with score ≥ `score`. -/
def zslFirstFrom (score : Dbl) : List zskiplistNode → List zskiplistNode → Option nodePtr
  | _, [] => none
  | before, x :: xs =>
    if x.score.ge score then some { before := before, cur := x, after := xs }
    else zslFirstFrom score (x :: before) xs

/-- Modelled from the spec: `zslFirstWithScore` (`t_zset.c`, declared in
`t_ts.h`, not part of the sources), `firstWithScoreAtLeast(score)`: the first
entry with score ≥ the given score, or none. -/
def zslFirstWithScore (zsl : zskiplist) (score : Dbl) : Option nodePtr :=
  zslFirstFrom score [] zsl.nodes

/-- Modelled from the spec: `zslistTypeGetElementByRank` (`t_zset.c`, not
part of the sources), `getByRank(rank)`: the node at the 1-based `rank` from
the low end, or none. -/
def zslistTypeGetElementByRank (zsl : zskiplist) (rank : Nat) : Option nodePtr :=
  if rank = 0 then none else nodeAt [] zsl.nodes (rank - 1)

/-! ## The map object -/

/-- The `zset` struct a map object points to: the dict and the skip list. -/
structure zset where
  dict : dict
  zsl : zskiplist
  deriving DecidableEq

/-- `createMapObject`: an empty dict and an empty skip list. -/
def createMapObject : zset := { dict := dictCreate, zsl := zslCreate }

/-- `mapTypeExists`: 1 if the score token is a key of the dict, else 0. -/
def mapTypeExists (mp : zset) (score : robj) : Int :=
  match dictFind mp.dict score with
  | some _ => 1
  | none => 0

/-- `mapTypeGet`: the value stored under the score token, or `NULL`. -/
def mapTypeGet (mp : zset) (score : robj) : Option robj :=
  match dictFind mp.dict score with
  | some de => some de.val
  | none => none

/-- `mapTypeSet`: when the token is a dict key, the dict entry and the first
skip-list node found for `scoreval` both get the new value (`redisAssert`
aborts when no node is found); otherwise a node is inserted and a dict entry
added.  Returns the new map and the C return value `update`. -/
def mapTypeSet (mp : zset) (scoreval : Dbl) (score value : robj) : Except Fault (zset × Int) :=
  match dictFind mp.dict score with
  | some _ =>
    match zslFirstWithScore mp.zsl scoreval with
    | none => .error .assertFailed
    | some ln =>
      .ok ({ dict := dictSetEntryVal mp.dict score value,
             zsl := { nodes := ln.setObj value, length := mp.zsl.length } }, 0)
  | none =>
    .ok ({ dict := dictAdd mp.dict score value,
           zsl := zslInsert mp.zsl scoreval value }, 1)

/-! ## Integers -/

/-- Value of a C `int` (32 bits, two's complement) holding `x`. -/
def toInt32 (x : Int) : Int := (x + 2 ^ 31) % 2 ^ 32 - 2 ^ 31

/-! ## The host: key space, client, parsers -/

/-- An object bound to a key: a map (`REDIS_MAP`) or an object of another
type. -/
inductive dbObj where
  | map (mp : zset)
  | other
  deriving DecidableEq

/-- The key space of the selected database. -/
abbrev redisDb := List (robj × dbObj)

/-- The client: the request `argv`, the database `c->db`, and the replies
queued so far. -/
structure redisClient where
  argv : List robj
  db : redisDb
  reply : List Reply
  deriving DecidableEq

/-- Modelled from the spec: score and rank parsing, supplied by the host
(`getDoubleFromObject`, `getLongFromObject` of `object.c`, not part of the
sources): a raw request token becomes a number, or nothing when it is
malformed. -/
structure Host where
  getDoubleFromObject : robj → Option Dbl
  getLongFromObject : robj → Option Int

/-- The request argument `c->argv[i]`; the command table guarantees the
arguments a command reads unconditionally. -/
def redisClient.arg (c : redisClient) (i : Nat) : robj := c.argv.getD i ""

/-- The argument count `c->argc`. -/
def redisClient.argc (c : redisClient) : Nat := c.argv.length

/-- `addReply` and its typed variants: queue one reply item. -/
def addReply (c : redisClient) (r : Reply) : redisClient :=
  { c with reply := c.reply ++ [r] }

/-- Modelled from the spec: key binding, `lookupKeyRead` / `lookupKeyWrite`
(`db.c`, not part of the sources): the object bound to `key`, if any. -/
def lookupKey (db : redisDb) (key : robj) : Option dbObj :=
  (db.find? (fun kv => kv.1 == key)).map (fun kv => kv.2)

/-- Modelled from the spec: `dbAdd` and in-place mutation of a bound object:
`key` is bound to `o` afterwards. -/
def dbSet (db : redisDb) (key : robj) (o : dbObj) : redisDb :=
  match lookupKey db key with
  | some _ => db.map (fun kv => if kv.1 == key then (kv.1, o) else kv)
  | none => db ++ [(key, o)]

/-- The guard `(o = lookupKeyReadOrReply(c,key,reply)) == NULL ||
checkType(c,o,REDIS_MAP)` opening every read command: the map to work on, or
nothing (with the reply already queued) when the command must return. -/
def lookupMapOrReply (c : redisClient) (key : robj) (reply : Reply) :
    redisClient × Option zset :=
  match lookupKey c.db key with
  | none => (addReply c reply, none)
  | some (.map mp) => (c, some mp)
  | some .other => (addReply c .wrongtypeerr, none)

/-- `mapTypeLookupWriteOrCreate`: the map bound to `key`, created empty and
bound when the key is free; nothing, with a wrong-type reply, when the key
holds another type. -/
def mapTypeLookupWriteOrCreate (c : redisClient) (key : robj) : redisClient × Option zset :=
  match lookupKey c.db key with
  | none => ({ c with db := dbSet c.db key (.map createMapObject) }, some createMapObject)
  | some (.map mp) => (c, some mp)
  | some .other => (addReply c .wrongtypeerr, none)

/-! ## Commands -/

/-- `tlenCommand`. -/
def tlenCommand (c : redisClient) : redisClient :=
  match lookupMapOrReply c (c.arg 1) .czero with
  | (c1, none) => c1
  | (c1, some mp) => addReply c1 (.longLong mp.zsl.length)

/-- `texistsCommand`. -/
def texistsCommand (c : redisClient) : redisClient :=
  match lookupMapOrReply c (c.arg 1) .czero with
  | (c1, none) => c1
  | (c1, some mp) => addReply c1 (if mapTypeExists mp (c.arg 2) ≠ 0 then .cone else .czero)

/-- `tgetCommand`. -/
def tgetCommand (c : redisClient) : redisClient :=
  match lookupMapOrReply c (c.arg 1) .nullbulk with
  | (c1, none) => c1
  | (c1, some mp) =>
    match mapTypeGet mp (c.arg 2) with
    | some value => addReply c1 (.bulk value)
    | none => addReply c1 .nullbulk

/-- The `for` loop of `taddCommand` over the `score value` pairs: the map
after the pairs applied so far, and whether every score token parsed. -/
def taddLoop (h : Host) : List robj → zset → Except Fault (zset × Bool)
  | score :: value :: rest, mp =>
    match h.getDoubleFromObject score with
    | none => .ok (mp, false)
    | some scoreval =>
      match mapTypeSet mp scoreval score value with
      | .error e => .error e
      | .ok r => taddLoop h rest r.1
  | _, mp => .ok (mp, true)

/-- `taddCommand`.  The map object is mutated in place, so the database
holds the map as the loop left it, also when a score token stops the loop.
`hashTypeTryConversion` only acts on zipmap-encoded hashes and the
bookkeeping of `touchWatchedKey` and `server.dirty` is outside the model;
`argc` is even when the loop runs, so the pairs are complete. -/
def taddCommand (h : Host) (c : redisClient) : Except Fault redisClient :=
  if c.argc % 2 = 1 then
    .ok (addReply c (.error "wrong number of arguments for TADD"))
  else
    match mapTypeLookupWriteOrCreate c (c.arg 1) with
    | (c1, none) => .ok c1
    | (c1, some mp) =>
      match taddLoop h (c.argv.drop 2) mp with
      | .error e => .error e
      | .ok (mp1, parsed) =>
        let c2 := { c1 with db := dbSet c1.db (c.arg 1) (.map mp1) }
        if parsed then .ok (addReply c2 .ok)
        else .ok (addReply c2 (.error "value is not a double"))

/-- `theadCommand`: replies with `ln->obj` of the first node. -/
def theadCommand (c : redisClient) : Except Fault redisClient :=
  match lookupMapOrReply c (c.arg 1) .emptymultibulk with
  | (c1, none) => .ok c1
  | (c1, some mp) =>
    match zslFirst mp.zsl with
    | none => .error .nullDeref
    | some ln => .ok (addReply c1 (.bulk ln.cur.obj))

/-- `ttailCommand`: replies with `ln->obj` of the tail node. -/
def ttailCommand (c : redisClient) : Except Fault redisClient :=
  match lookupMapOrReply c (c.arg 1) .emptymultibulk with
  | (c1, none) => .ok c1
  | (c1, some mp) =>
    match zslTail mp.zsl with
    | none => .error .nullDeref
    | some ln => .ok (addReply c1 (.bulk ln.cur.obj))

/-- The C string an argument's buffer holds: the bytes before the first
NUL. -/
def cstr (o : robj) : List Char := o.data.takeWhile (fun ch => ch.toNat ≠ 0)

/-- Character loop of `strcasecmp`: zero exactly when the two strings agree
up to ASCII case. -/
def strcasecmpChars : List Char → List Char → Int
  | [], [] => 0
  | [], b :: _ => -(b.toLower.toNat : Int)
  | a :: _, [] => (a.toLower.toNat : Int)
  | a :: as, b :: bs =>
    if a.toLower = b.toLower then strcasecmpChars as bs
    else (a.toLower.toNat : Int) - (b.toLower.toNat : Int)

/-- The call `strcasecmp(o->ptr, lit)` of the C library. -/
def strcasecmp (o : robj) (lit : String) : Int := strcasecmpChars (cstr o) lit.data

/-- The `while (remaining)` loop of `trangeRemaining` over `argv[4..]`:
whether it stopped on an unknown token, and the two flags as it left them. -/
def trangeRemainingLoop : List robj → Int → Int → Bool × Int × Int
  | [], withscores, withvalues => (false, withscores, withvalues)
  | a :: rest, withscores, withvalues =>
    if strcasecmp a "withscores" = 0 then trangeRemainingLoop rest 1 withvalues
    else if strcasecmp a "novalues" = 0 then trangeRemainingLoop rest 1 0
    else (true, withscores, withvalues)

/-- `trangeRemaining`: parses the trailing modifiers into `*withscores` and
`*withvalues`.  On an unknown token it queues the syntax error and returns to
its caller at once, before the closing adjustment. -/
def trangeRemaining (c : redisClient) (withscores withvalues : Int) :
    redisClient × Int × Int :=
  if c.argc > 4 then
    match trangeRemainingLoop (c.argv.drop 4) withscores withvalues with
    | (true, ws, wv) => (addReply c .syntaxerr, ws, wv)
    | (false, ws, wv) => (c, ws, if ws + wv = 0 then 1 else wv)
  else
    (c, withscores, if withscores + withvalues = 0 then 1 else withvalues)

/-- Body of the reply loops: the score when `withscores`, then the value
when `withvalues`. -/
def emitNode (c : redisClient) (n : zskiplistNode) (withscores withvalues : Int) :
    redisClient :=
  let c1 := if withscores ≠ 0 then addReply c (.double n.score) else c
  if withvalues ≠ 0 then addReply c1 (.bulk n.obj) else c1

/-- The `for (j = 0; j < rangelen; j++)` loop of `trangeGenericCommand`: each
round reads `ln`, so a `NULL` node is a fault. -/
def trangeLoop (withscores withvalues reverse : Int) :
    Nat → Option nodePtr → redisClient → Except Fault redisClient
  | 0, _, c => .ok c
  | _ + 1, none, _ => .error .nullDeref
  | j + 1, some ln, c =>
    trangeLoop withscores withvalues reverse j
      (if reverse ≠ 0 then ln.backward else ln.forward)
      (emitNode c ln.cur withscores withvalues)

/-- Conversion of an `int` to `unsigned long` (64 bits). -/
def toULong (x : Int) : Nat := (x % 2 ^ 64).toNat

/-- `trangeGenericCommand`, with its `int` parameters and locals. -/
def trangeGenericCommand (c : redisClient) (start end_ withscores withvalues reverse : Int) :
    Except Fault redisClient :=
  match lookupMapOrReply c (c.arg 1) .emptymultibulk with
  | (c1, none) => .ok c1
  | (c1, some mp) =>
    let zsl := mp.zsl
    let llen := toInt32 zsl.length
    let start1 := if start < 0 then toInt32 (llen + start) else start
    let end1 := if end_ < 0 then toInt32 (llen + end_) else end_
    let start2 := if start1 < 0 then 0 else start1
    if start2 > end1 ∨ start2 ≥ llen then
      .ok (addReply c1 .emptymultibulk)
    else
      let end2 := if end1 ≥ llen then toInt32 (llen - 1) else end1
      let rangelen := toInt32 (toInt32 (end2 - start2) + 1)
      let ln :=
        if reverse ≠ 0 then
          (if start2 = 0 then zslTail zsl
           else zslistTypeGetElementByRank zsl (toULong (toInt32 (llen - start2))))
        else
          (if start2 = 0 then zslFirst zsl
           else zslistTypeGetElementByRank zsl (toULong (toInt32 (start2 + 1))))
      let c2 := addReply c1 (.multiBulkLen (toInt32 (rangelen * toInt32 (withscores + withvalues))))
      trangeLoop withscores withvalues reverse rangelen.toNat ln c2

/-- `trangeCommand`: the two `long` indices are narrowed to the `int`
parameters of `trangeGenericCommand`. -/
def trangeCommand (h : Host) (c : redisClient) : Except Fault redisClient :=
  match h.getLongFromObject (c.arg 2) with
  | none => .ok (addReply c (.error "value is not an integer"))
  | some start =>
    match h.getLongFromObject (c.arg 3) with
    | none => .ok (addReply c (.error "value is not an integer"))
    | some end_ =>
      match trangeRemaining c 0 1 with
      | (c1, withscores, withvalues) =>
        trangeGenericCommand c1 (toInt32 start) (toInt32 end_) withscores withvalues 0

/-- The parsed score interval of a range-by-score request. -/
structure zrangespec where
  min : Dbl
  max : Dbl
  minex : Int
  maxex : Int
  deriving DecidableEq

/-- Modelled from the spec: one bound of `zslParseRange`: a leading `(` marks
it exclusive, the rest must be a double and not NaN. -/
def zslParseBound (h : Host) (tok : robj) : Option (Dbl × Int) :=
  match tok.data with
  | '(' :: rest =>
    match h.getDoubleFromObject (String.mk rest) with
    | some d => if d.isNaN then none else some (d, 1)
    | none => none
  | _ =>
    match h.getDoubleFromObject tok with
    | some d => if d.isNaN then none else some (d, 0)
    | none => none

/-- Modelled from the spec: `zslParseRange` (`t_zset.c`, declared in
`t_ts.h`, not part of the sources): `min max` as score bounds with an
optional `(` mark meaning exclusive; a malformed or NaN bound is rejected. -/
def zslParseRange (h : Host) (min max : robj) : Option zrangespec :=
  match zslParseBound h min, zslParseBound h max with
  | some (lo, loex), some (hi, hiex) => some { min := lo, max := hi, minex := loex, maxex := hiex }
  | _, _ => none

/-- The `while (ln)` loop of `trangebyscoreGenericCommand` over the chain
from `ln` on: stops at the first node past `range.max`, counts and (unless
`justcount`) emits the others. -/
def trangebyscoreLoop (range : zrangespec) (justcount withscores withvalues : Int) :
    List zskiplistNode → Nat → redisClient → Nat × redisClient
  | [], rangelen, c => (rangelen, c)
  | n :: rest, rangelen, c =>
    if (if range.maxex ≠ 0 then n.score.ge range.max else n.score.gt range.max) then
      (rangelen, c)
    else
      trangebyscoreLoop range justcount withscores withvalues rest (rangelen + 1)
        (if justcount = 0 then emitNode c n withscores withvalues else c)

/-- `setDeferredMultiBulkLength`: fills in the length slot reserved earlier
at position `slot` of the output. -/
def setDeferredMultiBulkLength (c : redisClient) (slot : Nat) (n : Int) : redisClient :=
  { c with reply := c.reply.set slot (.multiBulkLen n) }

/-- `trangebyscoreGenericCommand`; `reverse` is accepted and not read ("No
reverse implementation for now"). -/
def trangebyscoreGenericCommand (h : Host) (c : redisClient) (_reverse justcount : Int) :
    redisClient :=
  match zslParseRange h (c.arg 2) (c.arg 3) with
  | none => addReply c (.error "min or max is not a double")
  | some range =>
    match trangeRemaining c 0 1 with
    | (c1, withscores, withvalues) =>
      let emptyreply := if justcount ≠ 0 then Reply.czero else Reply.emptymultibulk
      match lookupMapOrReply c1 (c.arg 1) emptyreply with
      | (c2, none) => c2
      | (c2, some mp) =>
        match zslFirstWithScore mp.zsl range.min with
        | none => addReply c2 emptyreply
        | some ln =>
          let slot := c2.reply.length
          let c3 := if justcount = 0 then addReply c2 .deferredLen else c2
          match trangebyscoreLoop range justcount withscores withvalues
              (ln.cur :: ln.after) 0 c3 with
          | (rangelen, c4) =>
            if justcount ≠ 0 then addReply c4 (.longLong rangelen)
            else setDeferredMultiBulkLength c4 slot (rangelen * (withscores + withvalues))

/-- `trangebyscoreCommand`. -/
def trangebyscoreCommand (h : Host) (c : redisClient) : redisClient :=
  trangebyscoreGenericCommand h c 0 0

/-- `tcountCommand`. -/
def tcountCommand (h : Host) (c : redisClient) : redisClient :=
  trangebyscoreGenericCommand h c 0 1

/-! ## A concrete host for worked requests -/

/-- Value of a string of decimal digits, continuing from `acc`. -/
def digitsVal : List Char → Nat → Option Nat
  | [], acc => some acc
  | ch :: rest, acc =>
    if 48 ≤ ch.toNat ∧ ch.toNat ≤ 57 then digitsVal rest (acc * 10 + (ch.toNat - 48)) else none

/-- Unsigned decimal numeral `digits[.digits]` as a rational. -/
def decimalMag (cs : List Char) : Option ℚ :=
  match cs.span (fun ch => decide (ch ≠ '.')) with
  | (_, [_]) => none
  | ([], _) => none
  | (ip, []) => (digitsVal ip 0).map (fun n => (n : ℚ))
  | (ip, _ :: fp) => (digitsVal (ip ++ fp) 0).map (fun n => mkRat n (10 ^ fp.length))

/-- The decimal fragment of `strtod`: `nan`, `inf`, `+inf`, `-inf` and
`[-]digits[.digits]`, exact on the tokens used below. -/
def decimalDouble (tok : robj) : Option Dbl :=
  if tok = "nan" then some .nan
  else if tok = "inf" ∨ tok = "+inf" then some .pinf
  else if tok = "-inf" then some .ninf
  else
    match tok.data with
    | '-' :: cs => (decimalMag cs).map (fun q => Dbl.fin (-q))
    | cs => (decimalMag cs).map Dbl.fin

/-- The decimal fragment of `strtol`, within the range of a 64-bit `long`. -/
def decimalLong (tok : robj) : Option Int :=
  match tok.data with
  | [] => none
  | ['-'] => none
  | '-' :: cs => (digitsVal cs 0).bind (fun n => if n ≤ 2 ^ 63 then some (-(n : Int)) else none)
  | cs => (digitsVal cs 0).bind (fun n => if n < 2 ^ 63 then some (n : Int) else none)

/-- A host whose parsers read plain decimal numerals. -/
def decimalHost : Host :=
  { getDoubleFromObject := decimalDouble, getLongFromObject := decimalLong }

/-! ## Reachable maps and the properties stated about them -/

/-- Maps the code can build: the empty map, and the result of any
`mapTypeSet` call that returned, on a map already built. -/
inductive Reach : zset → Prop
  | create : Reach createMapObject
  | set (mp mp1 : zset) (scoreval : Dbl) (score value : robj) (update : Int) :
      Reach mp → mapTypeSet mp scoreval score value = .ok (mp1, update) → Reach mp1

/-- Maps built the way `taddCommand` calls `mapTypeSet`: every score token is
passed together with the double the host parsed from it. -/
inductive ReachVia (h : Host) : zset → Prop
  | create : ReachVia h createMapObject
  | set (mp mp1 : zset) (scoreval : Dbl) (score value : robj) (update : Int) :
      ReachVia h mp → h.getDoubleFromObject score = some scoreval →
      mapTypeSet mp scoreval score value = .ok (mp1, update) → ReachVia h mp1

/-- No node of the map carries a NaN score. -/
def NoNaN (mp : zset) : Prop := ∀ n ∈ mp.zsl.nodes, n.score ≠ Dbl.nan

instance (mp : zset) : Decidable (NoNaN mp) :=
  inferInstanceAs (Decidable (∀ n ∈ mp.zsl.nodes, n.score ≠ Dbl.nan))

/-- The container invariant in the spec's words: every dict key has exactly
one skip-list node with its numeric score, holding the dict's value, and
every skip-list node's score is a dict key with the node's value. -/
def ContainerInvariant (h : Host) (mp : zset) : Prop :=
  (∀ e ∈ mp.dict.table, ∃ s, h.getDoubleFromObject e.key = some s ∧
      mp.zsl.nodes.filter (fun n => decide (n.score = s)) = [{ score := s, obj := e.val }]) ∧
  (∀ n ∈ mp.zsl.nodes, ∃ e ∈ mp.dict.table,
      h.getDoubleFromObject e.key = some n.score ∧ e.val = n.obj)

/-- What one entry contributes to a range reply: the score when
`withscores`, then the value when `withvalues`. -/
def project (withscores withvalues : Int) (n : zskiplistNode) : List Reply :=
  (if withscores ≠ 0 then [Reply.double n.score] else []) ++
  (if withvalues ≠ 0 then [Reply.bulk n.obj] else [])

/-- The rank resolution rule in the spec's words, for a container of `n`
entries: a negative index becomes `n + index`; `start` still negative becomes
0; the range is empty when `start > end` or `start ≥ n`; `end` is clamped to
`n - 1`.  Gives the resolved `(start, end)`, or nothing for the empty range. -/
def resolveRank (n start end_ : Int) : Option (Nat × Nat) :=
  let s := if start < 0 then n + start else start
  let e := if end_ < 0 then n + end_ else end_
  let s := if s < 0 then 0 else s
  if s > e ∨ s ≥ n then none
  else some (s.toNat, (if e ≥ n then n - 1 else e).toNat)

/-- The score test of a range-by-score query in the spec's words, with an
inclusive `min`: `min ≤ s`, and `s < max` when `max` is exclusive, `s ≤ max`
otherwise. -/
def inScoreRange (range : zrangespec) (n : zskiplistNode) : Bool :=
  range.min.le n.score &&
    (if range.maxex ≠ 0 then n.score.lt range.max else n.score.le range.max)

/-- The loop test of the score walk of `trangebyscoreGenericCommand`: the
node is kept unless `break` is taken. -/
def keepScore (range : zrangespec) (n : zskiplistNode) : Bool :=
  !(if range.maxex ≠ 0 then n.score.ge range.max else n.score.gt range.max)

/-! ## Worked maps -/

/-- The map after `TADD k 1 a 2 b 3 c`. -/
def mapABC : zset :=
  { dict := { table := [⟨"1", "a"⟩, ⟨"2", "b"⟩, ⟨"3", "c"⟩] },
    zsl := { nodes := [⟨.fin 1, "a"⟩, ⟨.fin 2, "b"⟩, ⟨.fin 3, "c"⟩], length := 3 } }

/-- The map `1:a 2:b 3:c` after `TADD k 4 d`. -/
def mapABCD : zset :=
  { dict := { table := [⟨"1", "a"⟩, ⟨"2", "b"⟩, ⟨"3", "c"⟩, ⟨"4", "d"⟩] },
    zsl := { nodes := [⟨.fin 1, "a"⟩, ⟨.fin 2, "b"⟩, ⟨.fin 3, "c"⟩, ⟨.fin 4, "d"⟩],
             length := 4 } }

/-- The map `1:a 2:b 3:c` after `TADD k 2 z`. -/
def mapAZC : zset :=
  { dict := { table := [⟨"1", "a"⟩, ⟨"2", "z"⟩, ⟨"3", "c"⟩] },
    zsl := { nodes := [⟨.fin 1, "a"⟩, ⟨.fin 2, "z"⟩, ⟨.fin 3, "c"⟩], length := 3 } }

/-- The map after `TADD k 1 a 1.0 b`. -/
def mapTwoTokens : zset :=
  { dict := { table := [⟨"1", "a"⟩, ⟨"1.0", "b"⟩] },
    zsl := { nodes := [⟨.fin 1, "a"⟩, ⟨.fin 1, "b"⟩], length := 2 } }

/-- The map after `TADD k 1 a 1.0 b` followed by `TADD k 1.0 z`. -/
def mapTwoTokensUpdated : zset :=
  { dict := { table := [⟨"1", "a"⟩, ⟨"1.0", "z"⟩] },
    zsl := { nodes := [⟨.fin 1, "z"⟩, ⟨.fin 1, "b"⟩], length := 2 } }

/-- A client with request `argv` on a database binding the key `k` to the
map `mp`, nothing replied yet. -/
def clientOn (mp : zset) (argv : List robj) : redisClient :=
  { argv := argv, db := [("k", .map mp)], reply := [] }

/-- The chain is in ascending score order. -/
def ScoreSorted (l : List zskiplistNode) : Prop :=
  l.Pairwise (fun a b => a.score.le b.score = true)

/-! ## Definitions for the properties of `TADD`, updates, flags and reference counts -/

/-- The `score value` pairs that follow the key in a `TADD` request. -/
def pairsOf : List robj → List (robj × robj)
  | score :: value :: rest => (score, value) :: pairsOf rest
  | _ => []

/-- The pairs in front of the first pair whose score token the host cannot
parse. -/
def parsedPairs (h : Host) (pairs : List (robj × robj)) : List (robj × robj) :=
  pairs.takeWhile (fun p => (h.getDoubleFromObject p.1).isSome)

/-- Pair-by-pair application: each pair is handed to `mapTypeSet` with the
double its token denotes, in order; a pair whose token denotes nothing is
not applied. -/
def setPairs (h : Host) : List (robj × robj) → zset → Except Fault zset
  | [], mp => .ok mp
  | (score, value) :: rest, mp =>
    match h.getDoubleFromObject score with
    | none => setPairs h rest mp
    | some scoreval =>
      match mapTypeSet mp scoreval score value with
      | .error e => .error e
      | .ok r => setPairs h rest r.1

/-- The token is `lit` up to ASCII case. -/
def sameIgnoringCase (tok : robj) (lit : String) : Bool :=
  tok.data.map Char.toLower == lit.data.map Char.toLower

/-- The map whose chain is the chain of `mp` read from the tail. -/
def reverseChain (mp : zset) : zset :=
  { mp with zsl := { nodes := mp.zsl.nodes.reverse, length := mp.zsl.length } }

/-- One reference-count operation, on the object named by its bytes (the
worked requests use objects of pairwise different bytes). -/
inductive RefOp where
  | incr (o : robj)
  | decr (o : robj)
  deriving DecidableEq

/-- Net change of the reference count of `o` over a run of operations. -/
def refDelta (o : robj) : List RefOp → Int
  | [] => 0
  | .incr x :: rest => (if x = o then 1 else 0) + refDelta o rest
  | .decr x :: rest => (if x = o then -1 else 0) + refDelta o rest

/-- Whether an operation is an `incrRefCount`. -/
def RefOp.isIncr : RefOp → Bool
  | .incr _ => true
  | .decr _ => false

/-- Reference-count operations of `tgetCommand`: `mapTypeGet` increments the
value it found, `addReplyBulk` is taken to leave the count as it found it,
`decrRefCount` follows. -/
def tgetCommandRefs (c : redisClient) : List RefOp :=
  match lookupMapOrReply c (c.arg 1) .nullbulk with
  | (_, none) => []
  | (_, some mp) =>
    match dictFind mp.dict (c.arg 2) with
    | some de => [.incr de.val, .decr de.val]
    | none => []

/-- Reference-count operations of the reply loop of `trangeGenericCommand`:
`incrRefCount(value)` before each `addReplyBulk(c,value)`, nothing after. -/
def trangeLoopRefs (withvalues reverse : Int) : Nat → Option nodePtr → List RefOp
  | 0, _ => []
  | _ + 1, none => []
  | j + 1, some ln =>
    (if withvalues ≠ 0 then [RefOp.incr ln.cur.obj] else []) ++
      trangeLoopRefs withvalues reverse j (if reverse ≠ 0 then ln.backward else ln.forward)

/-- Reference-count operations of the walk of `trangebyscoreGenericCommand`:
`incrRefCount(value)` before each `addReplyBulk(c,value)`, nothing after. -/
def trangebyscoreLoopRefs (range : zrangespec) (justcount withvalues : Int) :
    List zskiplistNode → List RefOp
  | [] => []
  | n :: rest =>
    if (if range.maxex ≠ 0 then n.score.ge range.max else n.score.gt range.max) then []
    else
      (if justcount = 0 ∧ withvalues ≠ 0 then [RefOp.incr n.obj] else []) ++
        trangebyscoreLoopRefs range justcount withvalues rest

/-- Reference-count operations of `mapTypeSet`, in source order: on update
the old dict value and the old node value are released and the new value
taken twice; on insert the value is taken for the skip list, the score token
and the value for the dict. -/
def mapTypeSetRefs (mp : zset) (scoreval : Dbl) (score value : robj) : List RefOp :=
  match dictFind mp.dict score with
  | some de =>
    match zslFirstWithScore mp.zsl scoreval with
    | none => []
    | some ln => [.decr de.val, .incr value, .decr ln.cur.obj, .incr value]
  | none => [.incr value, .incr score, .incr value]

/-- The map after `TADD k 1 a 1.0 b` followed by a second `TADD k 1.0 b`. -/
def mapTwoTokensAgain : zset :=
  { dict := { table := [⟨"1", "a"⟩, ⟨"1.0", "b"⟩] },
    zsl := { nodes := [⟨.fin 1, "b"⟩, ⟨.fin 1, "b"⟩], length := 2 } }

/-- The map after `mapTypeSet` of the NaN score with token `nan` and value
`a` on the empty map. -/
def mapNaN : zset :=
  { dict := { table := [⟨"nan", "a"⟩] },
    zsl := { nodes := [⟨.nan, "a"⟩], length := 1 } }

/-- The map after `TADD k 1 a`. -/
def mapOneA : zset :=
  { dict := { table := [⟨"1", "a"⟩] },
    zsl := { nodes := [⟨.fin 1, "a"⟩], length := 1 } }

/-- The map after `TADD k 1 b`. -/
def mapOneB : zset :=
  { dict := { table := [⟨"1", "b"⟩] },
    zsl := { nodes := [⟨.fin 1, "b"⟩], length := 1 } }

/-! ## Basic facts about the dict and the skip list -/

theorem dictFind_key {d : dict} {k : robj} {e : dictEntry} (h : dictFind d k = some e) :
    e.key = k ∧ e ∈ d.table := by
  unfold dictFind at h
  have h1 := List.find?_some h
  have h2 := List.mem_of_find?_eq_some h
  exact ⟨by simpa using h1, h2⟩

theorem dictFind_none {d : dict} {k : robj} (h : dictFind d k = none) :
    ∀ e ∈ d.table, e.key ≠ k := by
  unfold dictFind at h
  intro e he
  have := List.find?_eq_none.mp h e he
  simpa using this

theorem find_append_new (t : List dictEntry) (k v : robj)
    (h : t.find? (fun e => e.key == k) = none) :
    (t ++ [({ key := k, val := v } : dictEntry)]).find? (fun e => e.key == k) =
      some { key := k, val := v } := by
  rw [List.find?_append, h]
  simp

theorem dictFind_dictAdd (d : dict) (k v : robj) (h : dictFind d k = none) :
    dictFind (dictAdd d k v) k = some { key := k, val := v } := by
  unfold dictAdd
  rw [h]
  exact find_append_new d.table k v h

theorem find_map_set (t : List dictEntry) (k v : robj) (e : dictEntry)
    (h : t.find? (fun e => e.key == k) = some e) :
    (t.map (fun e => if e.key == k then { e with val := v } else e)).find?
      (fun e => e.key == k) = some { key := k, val := v } := by
  induction t with
  | nil => simp at h
  | cons x xs ih =>
    by_cases hx : x.key = k
    · simp [List.find?, hx]
    · have hx1 : (x.key == k) = false := by simpa using hx
      rw [List.find?_cons, hx1] at h
      simp only [List.map_cons, hx1]
      rw [List.find?_cons]
      simp only [Bool.false_eq_true, ↓reduceIte, hx1]
      exact ih h

theorem dictFind_dictSetEntryVal (d : dict) (k v : robj) (e : dictEntry)
    (h : dictFind d k = some e) :
    dictFind (dictSetEntryVal d k v) k = some { key := k, val := v } :=
  find_map_set d.table k v e h

theorem dictSize_dictAdd (d : dict) (k v : robj) (h : dictFind d k = none) :
    dictSize (dictAdd d k v) = dictSize d + 1 := by
  unfold dictAdd
  rw [h]
  simp [dictSize]

theorem dictSize_dictSetEntryVal (d : dict) (k v : robj) :
    dictSize (dictSetEntryVal d k v) = dictSize d := by
  simp [dictSize, dictSetEntryVal]

theorem zslInsertNodes_length (s : Dbl) (o : robj) (l : List zskiplistNode) :
    (zslInsertNodes s o l).length = l.length + 1 := by
  induction l with
  | nil => simp [zslInsertNodes]
  | cons x xs ih =>
    unfold zslInsertNodes
    split
    · simp [ih]
    · simp

/-- A pointer returned by the search denotes a node of the chain searched. -/
theorem zslFirstFrom_chain (s : Dbl) (l before : List zskiplistNode) (p : nodePtr)
    (h : zslFirstFrom s before l = some p) :
    p.before.reverse ++ p.cur :: p.after = before.reverse ++ l ∧ p.cur.score.ge s = true := by
  induction l generalizing before with
  | nil => simp [zslFirstFrom] at h
  | cons x xs ih =>
    unfold zslFirstFrom at h
    split at h
    · rename_i hx
      cases h
      exact ⟨rfl, hx⟩
    · have := ih (x :: before) h
      simpa using this

theorem setObj_length (p : nodePtr) (v : robj) :
    (p.setObj v).length = (p.before.reverse ++ p.cur :: p.after).length := by
  simp [nodePtr.setObj]

theorem zslFirstFrom_some (s : Dbl) (l before : List zskiplistNode)
    (h : ∃ n ∈ l, n.score.ge s = true) : ∃ p, zslFirstFrom s before l = some p := by
  induction l generalizing before with
  | nil => simp at h
  | cons x xs ih =>
    unfold zslFirstFrom
    by_cases hx : x.score.ge s = true
    · simp [hx]
    · simp only [hx]
      apply ih
      obtain ⟨n, hn, hs⟩ := h
      rcases List.mem_cons.mp hn with rfl | hn
      · exact absurd hs hx
      · exact ⟨n, hn, hs⟩

theorem Dbl.ge_self {a : Dbl} (h : a ≠ Dbl.nan) : a.ge a = true := by
  cases a <;> simp [Dbl.ge, Dbl.le, Dbl.lt, Dbl.eq] at h ⊢

/-- The two ways a `mapTypeSet` call returns. -/
theorem mapTypeSet_ok {mp mp1 : zset} {scoreval : Dbl} {score value : robj} {update : Int}
    (h : mapTypeSet mp scoreval score value = .ok (mp1, update)) :
    (dictFind mp.dict score = none ∧ update = 1 ∧
      mp1 = { dict := dictAdd mp.dict score value, zsl := zslInsert mp.zsl scoreval value }) ∨
    (∃ e ln, dictFind mp.dict score = some e ∧ zslFirstWithScore mp.zsl scoreval = some ln ∧
      update = 0 ∧
      mp1 = { dict := dictSetEntryVal mp.dict score value,
              zsl := { nodes := ln.setObj value, length := mp.zsl.length } }) := by
  unfold mapTypeSet at h
  split at h
  · rename_i e he
    split at h
    · cases h
    · rename_i ln hln
      injection h with h
      injection h with h1 h2
      exact Or.inr ⟨e, ln, he, hln, h2.symm, h1.symm⟩
  · rename_i he
    injection h with h
    injection h with h1 h2
    exact Or.inl ⟨he, h2.symm, h1.symm⟩

/-- The sizes of the two structures agree on every map the code builds. -/
theorem Reach.sizes {mp : zset} (hr : Reach mp) :
    dictSize mp.dict = mp.zsl.length ∧ mp.zsl.length = mp.zsl.nodes.length := by
  induction hr with
  | create => exact ⟨rfl, rfl⟩
  | set mp mp1 scoreval score value update _ hset ih =>
    rcases mapTypeSet_ok hset with ⟨he, _, rfl⟩ | ⟨e, ln, _, hln, _, rfl⟩
    · refine ⟨?_, ?_⟩
      · simp only [dictSize_dictAdd _ _ _ he, zslInsert, ih.1]
      · simp only [zslInsert, zslInsertNodes_length, ih.2]
    · refine ⟨?_, ?_⟩
      · simp only [dictSize_dictSetEntryVal, ih.1]
      · have hc := (zslFirstFrom_chain scoreval mp.zsl.nodes [] ln hln).1
        simp only [setObj_length, hc, ih.2, List.reverse_nil, List.nil_append]

theorem ReachVia.reach {h : Host} {mp : zset} (hr : ReachVia h mp) : Reach mp := by
  induction hr with
  | create => exact Reach.create
  | set mp mp1 scoreval score value update _ _ hset ih =>
    exact Reach.set mp mp1 scoreval score value update ih hset

theorem reach_mapABC : ReachVia decimalHost mapABC :=
  ReachVia.set
    { dict := { table := [⟨"1", "a"⟩, ⟨"2", "b"⟩] },
      zsl := { nodes := [⟨.fin 1, "a"⟩, ⟨.fin 2, "b"⟩], length := 2 } }
    mapABC (.fin 3) "3" "c" 1
    (ReachVia.set
      { dict := { table := [⟨"1", "a"⟩] }, zsl := { nodes := [⟨.fin 1, "a"⟩], length := 1 } }
      _ (.fin 2) "2" "b" 1
      (ReachVia.set createMapObject _ (.fin 1) "1" "a" 1 ReachVia.create (by decide) (by decide))
      (by decide) (by decide))
    (by decide) (by decide)

theorem reach_mapTwoTokens : ReachVia decimalHost mapTwoTokens :=
  ReachVia.set
    { dict := { table := [⟨"1", "a"⟩] }, zsl := { nodes := [⟨.fin 1, "a"⟩], length := 1 } }
    mapTwoTokens (.fin 1) "1.0" "b" 1
    (ReachVia.set createMapObject _ (.fin 1) "1" "a" 1 ReachVia.create (by decide) (by decide))
    (by decide) (by decide)

/-- Every dict key of a map built through the host's parser has a skip-list
node carrying the double its token denotes. -/
theorem ReachVia.key_has_node {h : Host} {mp : zset} (hr : ReachVia h mp) :
    ∀ e ∈ mp.dict.table, ∃ s, h.getDoubleFromObject e.key = some s ∧
      ∃ n ∈ mp.zsl.nodes, n.score = s := by
  induction hr with
  | create => intro e he; simp [createMapObject, dictCreate] at he
  | set mp mp1 scoreval score value update _ hp hset ih =>
    rcases mapTypeSet_ok hset with ⟨he, _, rfl⟩ | ⟨e0, ln, _, hln, _, rfl⟩
    · intro e hmem
      have hmem1 : e ∈ mp.dict.table ∨ e = { key := score, val := value } := by
        simpa [dictAdd, he] using hmem
      have hsub : ∀ n ∈ mp.zsl.nodes, n ∈ zslInsertNodes scoreval value mp.zsl.nodes := by
        intro n hn
        generalize mp.zsl.nodes = l at hn
        induction l with
        | nil => simp at hn
        | cons x xs ihl =>
          unfold zslInsertNodes
          split
          · rcases List.mem_cons.mp hn with rfl | hn
            · simp
            · exact List.mem_cons_of_mem _ (ihl hn)
          · exact List.mem_cons_of_mem _ hn
      have hnew : ({ score := scoreval, obj := value } : zskiplistNode) ∈
          zslInsertNodes scoreval value mp.zsl.nodes := by
        generalize mp.zsl.nodes = l
        induction l with
        | nil => simp [zslInsertNodes]
        | cons x xs ihl =>
          unfold zslInsertNodes
          split
          · exact List.mem_cons_of_mem _ ihl
          · simp
      rcases hmem1 with hmem1 | rfl
      · obtain ⟨s, hs, n, hn, hns⟩ := ih e hmem1
        exact ⟨s, hs, n, hsub n hn, hns⟩
      · exact ⟨scoreval, hp, _, hnew, rfl⟩
    · intro e hmem
      simp only [dictSetEntryVal, List.mem_map] at hmem
      obtain ⟨e1, he1, rfl⟩ := hmem
      obtain ⟨s, hs, n, hn, hns⟩ := ih e1 he1
      have hkey : (if (e1.key == score) = true then { e1 with val := value } else e1).key
          = e1.key := by split <;> rfl
      refine ⟨s, by rw [hkey]; exact hs, ?_⟩
      have hc := (zslFirstFrom_chain scoreval mp.zsl.nodes [] ln hln).1
      simp only [List.reverse_nil, List.nil_append] at hc
      rw [← hc] at hn
      simp only [nodePtr.setObj]
      rcases List.mem_append.mp hn with hn | hn
      · exact ⟨n, List.mem_append_left _ hn, hns⟩
      · rcases List.mem_cons.mp hn with rfl | hn
        · exact ⟨{ ln.cur with obj := value }, by simp, hns⟩
        · exact ⟨n, List.mem_append_right _ (List.mem_cons_of_mem _ hn), hns⟩

/-! ## Return value of `mapTypeSet` -/

/-- C1: `mapTypeSet` is documented to return 0 on insert and 1 on update; the
code returns 1 when the score token was absent (insert) and 0 when it was
present (update), on every map, e.g. 1 for the first `(5, a)` on the empty
map and 0 for replacing the value at an existing score. -/
theorem mapTypeSet_return_value_reversed :
    (∀ (mp : zset) (scoreval : Dbl) (score value : robj),
      (mapTypeSet mp scoreval score value).map Prod.snd =
        match dictFind mp.dict score with
        | none => .ok 1
        | some _ =>
          if (zslFirstWithScore mp.zsl scoreval).isSome then .ok 0
          else .error .assertFailed) ∧
    (mapTypeSet createMapObject (.fin 5) "5" "a").map Prod.snd = .ok 1 ∧
    (mapTypeSet mapABC (.fin 2) "2" "z").map Prod.snd = .ok 0 := by
  refine ⟨?_, by decide, by decide⟩
  intro mp scoreval score value
  unfold mapTypeSet
  cases dictFind mp.dict score with
  | none => rfl
  | some e =>
    cases zslFirstWithScore mp.zsl scoreval with
    | none => rfl
    | some ln => rfl

/-! ## Container invariant -/

/-- C2: the container invariant fails on a map `taddCommand` builds: after
`TADD k 1 a 1.0 b` the dict holds the keys `1` and `1.0` and the skip list two
nodes of score 1, so the key `1` has two nodes with its score; a following
`TADD k 1.0 z` rewrites the node holding `a`, leaving `a` only in the dict
and `b` only in the skip list. -/
theorem container_invariant_broken_by_equal_doubles :
    (taddCommand decimalHost ⟨["tadd", "k", "1", "a", "1.0", "b"], [], []⟩).map (fun c => c.db)
      = .ok [("k", .map mapTwoTokens)] ∧
    ReachVia decimalHost mapTwoTokens ∧
    ¬ ContainerInvariant decimalHost mapTwoTokens ∧
    mapTypeSet mapTwoTokens (.fin 1) "1.0" "z" = .ok (mapTwoTokensUpdated, 0) ∧
    ¬ ContainerInvariant decimalHost mapTwoTokensUpdated := by
  refine ⟨by decide, reach_mapTwoTokens, ?_, by decide, ?_⟩
  · rintro ⟨h1, _⟩
    obtain ⟨s, hs, hf⟩ := h1 ⟨"1", "a"⟩ (by simp [mapTwoTokens])
    have hs1 : s = Dbl.fin 1 := by
      have : decimalHost.getDoubleFromObject "1" = some (Dbl.fin 1) := by decide
      rw [this] at hs
      exact (Option.some.inj hs).symm
    subst hs1
    revert hf
    decide
  · rintro ⟨h1, _⟩
    obtain ⟨s, hs, hf⟩ := h1 ⟨"1", "a"⟩ (by simp [mapTwoTokensUpdated])
    have hs1 : s = Dbl.fin 1 := by
      have : decimalHost.getDoubleFromObject "1" = some (Dbl.fin 1) := by decide
      rw [this] at hs
      exact (Option.some.inj hs).symm
    subst hs1
    revert hf
    decide

/-! ## Sizes -/

/-- C3: on every map built from the empty map by `mapTypeSet` calls the
number of dict entries equals the skip-list `length` field, which is the
number of nodes and the number `TLEN` replies with; a call on a new score
token raises both by one and a call on a present token changes neither. -/
theorem size_invariant (mp : zset) (hr : Reach mp) :
    dictSize mp.dict = mp.zsl.length ∧
    mp.zsl.length = mp.zsl.nodes.length ∧
    (∀ c : redisClient, lookupKey c.db (c.arg 1) = some (.map mp) →
      (tlenCommand c).reply = c.reply ++ [.longLong (dictSize mp.dict)]) ∧
    (∀ (scoreval : Dbl) (score value : robj) (mp1 : zset) (update : Int),
      mapTypeSet mp scoreval score value = .ok (mp1, update) →
      Reach mp1 ∧
      (dictFind mp.dict score = none →
        dictSize mp1.dict = dictSize mp.dict + 1 ∧ mp1.zsl.length = mp.zsl.length + 1) ∧
      (dictFind mp.dict score ≠ none →
        dictSize mp1.dict = dictSize mp.dict ∧ mp1.zsl.length = mp.zsl.length)) := by
  refine ⟨hr.sizes.1, hr.sizes.2, ?_, ?_⟩
  · intro c hc
    simp [tlenCommand, lookupMapOrReply, hc, addReply, hr.sizes.1]
  · intro scoreval score value mp1 update hset
    refine ⟨Reach.set mp mp1 scoreval score value update hr hset, ?_, ?_⟩
    · intro hnone
      rcases mapTypeSet_ok hset with ⟨he, _, rfl⟩ | ⟨e, ln, he, _, _, rfl⟩
      · exact ⟨dictSize_dictAdd _ _ _ he, rfl⟩
      · rw [hnone] at he
        cases he
    · intro hsome
      rcases mapTypeSet_ok hset with ⟨he, _, rfl⟩ | ⟨e, ln, he, _, _, rfl⟩
      · exact absurd he hsome
      · exact ⟨dictSize_dictSetEntryVal _ _ _, rfl⟩

/-- The size invariant on the map `1:a 2:b 3:c`: sizes 3 and 3; inserting
`4:d` raises both to 4, updating the value at `2` leaves both at 3. -/
theorem size_invariant_witness :
    Reach mapABC ∧
    dictSize mapABC.dict = mapABC.zsl.length ∧
    mapTypeSet mapABC (.fin 4) "4" "d" = .ok (mapABCD, 1) ∧
    (dictSize mapABCD.dict = dictSize mapABC.dict + 1 ∧
      mapABCD.zsl.length = mapABC.zsl.length + 1) ∧
    mapTypeSet mapABC (.fin 2) "2" "z" = .ok (mapAZC, 0) ∧
    (dictSize mapAZC.dict = dictSize mapABC.dict ∧ mapAZC.zsl.length = mapABC.zsl.length) :=
  have hw := size_invariant mapABC reach_mapABC.reach
  ⟨reach_mapABC.reach, hw.1, by decide,
    ((hw.2.2.2 (.fin 4) "4" "d" mapABCD 1 (by decide)).2.1 (by decide)), by decide,
    ((hw.2.2.2 (.fin 2) "2" "z" mapAZC 0 (by decide)).2.2 (by decide))⟩

/-! ## Round trip -/

/-- C4: whenever `mapTypeSet` returns, on any map, `mapTypeGet` on the same
score token gives the value just set and `mapTypeExists` gives 1, whether the
token was new or present (the old value is replaced); the call does return on
every map built through the host's parser when the token is passed with the
(non-NaN) double it denotes; and on the empty map it returns a map of
length 1. -/
theorem set_get_round_trip (h : Host) (mp : zset) (scoreval : Dbl) (score value : robj) :
    (∀ mp1 update, mapTypeSet mp scoreval score value = .ok (mp1, update) →
      mapTypeGet mp1 score = some value ∧ mapTypeExists mp1 score = 1) ∧
    (ReachVia h mp → h.getDoubleFromObject score = some scoreval → scoreval ≠ Dbl.nan →
      ∃ mp1 update, mapTypeSet mp scoreval score value = .ok (mp1, update)) ∧
    (∃ mp1 update, mapTypeSet createMapObject scoreval score value = .ok (mp1, update) ∧
      mp1.zsl.length = 1 ∧ mp1.zsl.nodes.length = 1 ∧ dictSize mp1.dict = 1) := by
  refine ⟨?_, ?_, ?_⟩
  · intro mp1 update hset
    rcases mapTypeSet_ok hset with ⟨he, _, rfl⟩ | ⟨e, ln, he, _, _, rfl⟩
    · simp [mapTypeGet, mapTypeExists, dictFind_dictAdd _ _ _ he]
    · simp [mapTypeGet, mapTypeExists, dictFind_dictSetEntryVal _ _ _ e he]
  · intro hr hp hn
    cases hfind : dictFind mp.dict score with
    | none =>
      exact ⟨{ dict := dictAdd mp.dict score value, zsl := zslInsert mp.zsl scoreval value }, 1,
        by simp [mapTypeSet, hfind]⟩
    | some e =>
      obtain ⟨hkey, hmem⟩ := dictFind_key hfind
      obtain ⟨s, hs, n, hnmem, hns⟩ := hr.key_has_node e hmem
      rw [hkey, hp] at hs
      have hs1 : s = scoreval := (Option.some.inj hs).symm
      subst hs1
      obtain ⟨ln, hln⟩ := zslFirstFrom_some s mp.zsl.nodes []
        ⟨n, hnmem, by rw [hns]; exact Dbl.ge_self hn⟩
      exact ⟨{ dict := dictSetEntryVal mp.dict score value,
               zsl := { nodes := ln.setObj value, length := mp.zsl.length } }, 0,
        by simp [mapTypeSet, hfind, zslFirstWithScore, hln]⟩
  · exact ⟨_, 1, rfl, rfl, rfl, rfl⟩

/-- The round trip of the spec: `set(5.0, "a")` on the empty map, then
`get`, `exists` and the length. -/
theorem set_get_round_trip_witness :
    ReachVia decimalHost createMapObject ∧
    decimalHost.getDoubleFromObject "5.0" = some (.fin 5) ∧
    ∃ mp1 update, mapTypeSet createMapObject (.fin 5) "5.0" "a" = .ok (mp1, update) ∧
      mapTypeGet mp1 "5.0" = some "a" ∧ mapTypeExists mp1 "5.0" = 1 ∧ mp1.zsl.length = 1 :=
  have hw := set_get_round_trip decimalHost createMapObject (.fin 5) "5.0" "a"
  have hret := hw.2.1 ReachVia.create (by decide) (by decide)
  ⟨ReachVia.create, by decide,
    hret.elim fun mp1 hx => hx.elim fun update hset =>
      ⟨mp1, update, hset, (hw.1 mp1 update hset).1, (hw.1 mp1 update hset).2,
        hw.2.2.elim fun mp2 hy => hy.elim fun u2 hz => by
          have := hset.symm.trans hz.1
          injection this with this
          injection this with h1 h2
          rw [h1]
          exact hz.2.1⟩⟩

/-! ## Range by rank, forward -/

theorem toInt32_eq {x : Int} (h1 : -2 ^ 31 ≤ x) (h2 : x < 2 ^ 31) : toInt32 x = x := by
  unfold toInt32
  omega

theorem emitNode_reply (c : redisClient) (n : zskiplistNode) (ws wv : Int) :
    emitNode c n ws wv = { c with reply := c.reply ++ project ws wv n } := by
  unfold emitNode project addReply
  by_cases h1 : ws ≠ 0 <;> by_cases h2 : wv ≠ 0 <;> simp [h1, h2]

/-- Going forward from a node, `k` rounds of the reply loop emit the next `k`
nodes of the chain, provided the chain has that many left. -/
theorem trangeLoop_forward (ws wv : Int) (k : Nat) (p : nodePtr) (c : redisClient)
    (hk : k ≤ p.after.length + 1) :
    trangeLoop ws wv 0 k (some p) c =
      .ok { c with reply := c.reply ++ ((p.cur :: p.after).take k).flatMap (project ws wv) } := by
  induction k generalizing p c with
  | zero => simp [trangeLoop]
  | succ k ih =>
    cases k with
    | zero =>
      simp [trangeLoop, emitNode_reply]
    | succ k =>
      unfold trangeLoop
      simp only [ne_eq, not_true_eq_false, ↓reduceIte]
      cases hafter : p.after with
      | nil => rw [hafter] at hk; simp at hk
      | cons x xs =>
        have hf : p.forward = some { before := p.cur :: p.before, cur := x, after := xs } := by
          simp [nodePtr.forward, hafter]
        rw [hf, ih _ _ (by rw [hafter] at hk; simpa using hk)]
        simp [emitNode_reply, List.flatMap_cons]

theorem nodeAt_some (l before : List zskiplistNode) (i : Nat) (hi : i < l.length) :
    ∃ p, nodeAt before l i = some p ∧ p.cur :: p.after = l.drop i ∧
      p.before = (l.take i).reverse ++ before := by
  induction l generalizing before i with
  | nil => simp at hi
  | cons x xs ih =>
    cases i with
    | zero => exact ⟨_, rfl, rfl, rfl⟩
    | succ i =>
      obtain ⟨p, hp, hd, hb⟩ := ih (x :: before) i (by simpa using hi)
      exact ⟨p, by simpa [nodeAt] using hp, by simpa using hd, by simp [hb]⟩

/-- The resolved range of the spec's rule lies inside the container. -/
theorem resolveRank_bounds {n start end_ : Int} {s e : Nat} (hn : 0 ≤ n)
    (h : resolveRank n start end_ = some (s, e)) : s ≤ e ∧ (e : Int) < n := by
  unfold resolveRank at h
  simp only at h
  split_ifs at h <;> simp only [Option.some.injEq, Prod.mk.injEq, reduceCtorEq] at h <;> omega

/-- C5: with `reverse = 0`, `trangeGenericCommand` on a map of `n` entries
resolves `start` and `end` by the spec's rule (`resolveRank`) and replies
with the empty multi-bulk when the rule gives the empty range, otherwise with
the entries at ranks `start..end` of the chain in ascending order,
`end - start + 1` of them, each projected by the two flags. -/
theorem trange_forward_by_rank (c : redisClient) (mp : zset) (start end_ ws wv : Int)
    (hlook : lookupKey c.db (c.arg 1) = some (.map mp))
    (hlen : mp.zsl.length = mp.zsl.nodes.length)
    (hstart : -2 ^ 31 ≤ start ∧ start < 2 ^ 31) (hend : -2 ^ 31 ≤ end_ ∧ end_ < 2 ^ 31)
    (hws : ws = 0 ∨ ws = 1) (hwv : wv = 0 ∨ wv = 1)
    (hsmall : (mp.zsl.nodes.length : Int) < 2 ^ 31)
    (hhdr : (mp.zsl.nodes.length : Int) * (ws + wv) < 2 ^ 31) :
    trangeGenericCommand c start end_ ws wv 0 =
      .ok { c with reply := c.reply ++
        match resolveRank mp.zsl.nodes.length start end_ with
        | none => [Reply.emptymultibulk]
        | some (s, e) =>
          Reply.multiBulkLen (((e - s + 1 : Nat) : Int) * (ws + wv)) ::
            ((mp.zsl.nodes.drop s).take (e - s + 1)).flatMap (project ws wv) } ∧
    (∀ s e, resolveRank mp.zsl.nodes.length start end_ = some (s, e) →
      s ≤ e ∧ e < mp.zsl.nodes.length ∧
      ((mp.zsl.nodes.drop s).take (e - s + 1)).length = e - s + 1) := by
  have hbounds : ∀ s e, resolveRank mp.zsl.nodes.length start end_ = some (s, e) →
      s ≤ e ∧ e < mp.zsl.nodes.length := by
    intro s e hse
    have := resolveRank_bounds (Int.natCast_nonneg _) hse
    omega
  refine ⟨?_, ?_⟩
  · unfold trangeGenericCommand
    simp only [lookupMapOrReply, hlook, hlen]
    have hllen : toInt32 (mp.zsl.nodes.length : Int) = mp.zsl.nodes.length :=
      toInt32_eq (by omega) (by omega)
    rw [hllen]
    generalize hn : (mp.zsl.nodes.length : Int) = n at *
    have hn0 : 0 ≤ n := by omega
    have hs1 : (if start < 0 then toInt32 (n + start) else start) =
        (if start < 0 then n + start else start) := by
      split
      · exact toInt32_eq (by omega) (by omega)
      · rfl
    have he1 : (if end_ < 0 then toInt32 (n + end_) else end_) =
        (if end_ < 0 then n + end_ else end_) := by
      split
      · exact toInt32_eq (by omega) (by omega)
      · rfl
    simp only [hs1, he1]
    unfold resolveRank
    simp only []
    generalize hs1d : (if start < 0 then n + start else start) = s1
    generalize he1d : (if end_ < 0 then n + end_ else end_) = e1
    generalize hs2d : (if s1 < 0 then 0 else s1) = s2
    have hs1r : -2 ^ 31 ≤ s1 ∧ s1 < 2 ^ 31 := by rw [← hs1d]; split <;> omega
    have he1r : -2 ^ 31 ≤ e1 ∧ e1 < 2 ^ 31 := by rw [← he1d]; split <;> omega
    have hs2r : 0 ≤ s2 ∧ s2 < 2 ^ 31 := by rw [← hs2d]; split <;> omega
    by_cases hcond : s2 > e1 ∨ s2 ≥ n
    · simp only [hcond, if_true]
      rfl
    · simp only [hcond, if_false]
      have he2 : (if e1 ≥ n then toInt32 (n - 1) else e1) = (if e1 ≥ n then n - 1 else e1) := by
        split
        · exact toInt32_eq (by omega) (by omega)
        · rfl
      rw [he2]
      generalize he2d : (if e1 ≥ n then n - 1 else e1) = e2
      have he2r : s2 ≤ e2 ∧ e2 < n := by rw [← he2d]; split <;> omega
      have t1 : toInt32 (e2 - s2) = e2 - s2 := toInt32_eq (by omega) (by omega)
      have t2 : toInt32 (e2 - s2 + 1) = e2 - s2 + 1 := toInt32_eq (by omega) (by omega)
      have t3 : toInt32 (ws + wv) = ws + wv := by
        rcases hws with rfl | rfl <;> rcases hwv with rfl | rfl <;> decide
      have t4 : toInt32 ((e2 - s2 + 1) * (ws + wv)) = (e2 - s2 + 1) * (ws + wv) := by
        rcases hws with rfl | rfl <;> rcases hwv with rfl | rfl <;>
          exact toInt32_eq (by omega) (by omega)
      have hln : (if s2 = 0 then zslFirst mp.zsl
          else zslistTypeGetElementByRank mp.zsl (toULong (toInt32 (s2 + 1)))) =
          nodeAt [] mp.zsl.nodes s2.toNat := by
        split
        · rename_i h0
          subst h0
          rfl
        · rename_i h0
          have t5 : toInt32 (s2 + 1) = s2 + 1 := toInt32_eq (by omega) (by omega)
          have t6 : toULong (s2 + 1) = s2.toNat + 1 := by unfold toULong; omega
          simp [zslistTypeGetElementByRank, t5, t6]
      simp only [t1, t2, t3, t4, ne_eq, not_true_eq_false, if_false, hln]
      obtain ⟨p, hp, hd, _⟩ := nodeAt_some mp.zsl.nodes [] s2.toNat (by omega)
      have hplen : p.after.length + 1 = mp.zsl.nodes.length - s2.toNat := by
        have := congrArg List.length hd
        simpa using this
      rw [hp, trangeLoop_forward _ _ _ _ _ (by omega)]
      have hk : (e2 - s2 + 1).toNat = e2.toNat - s2.toNat + 1 := by omega
      have hk1 : ((e2.toNat - s2.toNat + 1 : Nat) : Int) = e2 - s2 + 1 := by omega
      simp only [addReply, hd, hk, hk1, List.append_assoc, List.singleton_append]
  · intro s e hse
    obtain ⟨h1, h2⟩ := hbounds s e hse
    refine ⟨h1, h2, ?_⟩
    simp only [List.length_take, List.length_drop]
    omega

/-- The three literal ranges of the spec on the map `1:a 2:b 3:c`, values
only. -/
theorem trange_forward_by_rank_witness :
    trangeGenericCommand (clientOn mapABC ["trange", "k", "0", "1"]) 0 1 0 1 0 =
      .ok { clientOn mapABC ["trange", "k", "0", "1"] with
            reply := [.multiBulkLen 2, .bulk "a", .bulk "b"] } ∧
    trangeGenericCommand (clientOn mapABC ["trange", "k", "-1", "-1"]) (-1) (-1) 0 1 0 =
      .ok { clientOn mapABC ["trange", "k", "-1", "-1"] with
            reply := [.multiBulkLen 1, .bulk "c"] } ∧
    trangeGenericCommand (clientOn mapABC ["trange", "k", "5", "10"]) 5 10 0 1 0 =
      .ok { clientOn mapABC ["trange", "k", "5", "10"] with reply := [.multiBulkLen 0] } :=
  ⟨(trange_forward_by_rank (clientOn mapABC ["trange", "k", "0", "1"]) mapABC 0 1 0 1
      (by decide) (by decide) (by decide) (by decide) (by decide) (by decide) (by decide)
      (by decide)).1.trans (by decide),
   (trange_forward_by_rank (clientOn mapABC ["trange", "k", "-1", "-1"]) mapABC (-1) (-1) 0 1
      (by decide) (by decide) (by decide) (by decide) (by decide) (by decide) (by decide)
      (by decide)).1.trans (by decide),
   (trange_forward_by_rank (clientOn mapABC ["trange", "k", "5", "10"]) mapABC 5 10 0 1
      (by decide) (by decide) (by decide) (by decide) (by decide) (by decide) (by decide)
      (by decide)).1.trans (by decide)⟩

/-! ## Order facts about doubles -/

theorem Dbl.le_trans {a b c : Dbl} (h1 : a.le b = true) (h2 : b.le c = true) :
    a.le c = true := by
  cases a <;> cases b <;> cases c <;>
    simp only [Dbl.le, Dbl.lt, Dbl.eq, Bool.or_eq_true, decide_eq_true_eq, Bool.or_self,
      Bool.false_eq_true, or_self, Bool.or_false, Bool.or_true] at h1 h2 ⊢
  rename_i x y z
  rcases h1 with h1 | h1 <;> rcases h2 with h2 | h2
  · exact Or.inl (lt_trans h1 h2)
  · exact Or.inl (h2 ▸ h1)
  · exact Or.inl (h1 ▸ h2)
  · exact Or.inr (h1.trans h2)

theorem Dbl.lt_of_lt_of_le {a b c : Dbl} (h1 : a.lt b = true) (h2 : b.le c = true) :
    a.lt c = true := by
  cases a <;> cases b <;> cases c <;>
    simp only [Dbl.le, Dbl.lt, Dbl.eq, Bool.or_eq_true, decide_eq_true_eq, Bool.or_self,
      Bool.false_eq_true, or_self, Bool.or_false, Bool.or_true] at h1 h2 ⊢
  rename_i x y z
  rcases h2 with h2 | h2
  · exact lt_trans h1 h2
  · exact h2 ▸ h1

theorem Dbl.le_total {a b : Dbl} (ha : a ≠ Dbl.nan) (hb : b ≠ Dbl.nan) :
    a.le b = true ∨ b.lt a = true := by
  cases a <;> cases b <;>
    simp only [Dbl.le, Dbl.lt, Dbl.eq, Bool.or_eq_true, decide_eq_true_eq, Bool.or_self,
      Bool.false_eq_true, or_self, Bool.or_false, Bool.or_true, ne_eq, not_true_eq_false,
      or_true, true_or] at ha hb ⊢
  rename_i x y
  rcases lt_trichotomy x y with h | h | h
  · exact Or.inl (Or.inl h)
  · exact Or.inl (Or.inr h)
  · exact Or.inr h

theorem Dbl.not_lt_of_le {a b : Dbl} (h : a.le b = true) : b.lt a = false := by
  cases a <;> cases b <;>
    simp only [Dbl.le, Dbl.lt, Dbl.eq, Bool.or_eq_true, decide_eq_true_eq, Bool.or_self,
      Bool.false_eq_true, or_self, Bool.or_false, Bool.or_true, decide_eq_false_iff_not] at h ⊢
  rename_i x y
  rcases h with h | h
  · exact not_lt.mpr (le_of_lt h)
  · exact not_lt.mpr (le_of_eq h)

/-! ## The chain stays in score order -/

theorem mem_zslInsertNodes (s : Dbl) (o : robj) (l : List zskiplistNode) (y : zskiplistNode) :
    y ∈ zslInsertNodes s o l ↔ y = { score := s, obj := o } ∨ y ∈ l := by
  induction l with
  | nil => simp [zslInsertNodes]
  | cons x xs ih =>
    unfold zslInsertNodes
    split
    · simp only [List.mem_cons, ih]
      tauto
    · simp only [List.mem_cons]

theorem zslInsertNodes_sorted (s : Dbl) (o : robj) (l : List zskiplistNode)
    (hs : s ≠ Dbl.nan) (hl : ∀ n ∈ l, n.score ≠ Dbl.nan) (hsorted : ScoreSorted l) :
    ScoreSorted (zslInsertNodes s o l) := by
  induction l with
  | nil => simp [zslInsertNodes, ScoreSorted]
  | cons x xs ih =>
    have hx : x.score ≠ Dbl.nan := hl x (List.mem_cons_self _ _)
    have hxs : ∀ n ∈ xs, n.score ≠ Dbl.nan := fun n hn => hl n (List.mem_cons_of_mem _ hn)
    obtain ⟨hhead, htail⟩ := List.pairwise_cons.mp hsorted
    unfold zslInsertNodes
    split
    · rename_i hcond
      have hxle : x.score.le s = true := by
        simp only [Bool.or_eq_true, Bool.and_eq_true] at hcond
        rcases hcond with h | ⟨h, _⟩
        · simp [Dbl.le, h]
        · simp [Dbl.le, h]
      refine List.pairwise_cons.mpr ⟨?_, ih hxs htail⟩
      intro y hy
      rcases (mem_zslInsertNodes s o xs y).mp hy with rfl | hy
      · exact hxle
      · exact hhead y hy
    · rename_i hcond
      have hsle : s.le x.score = true := by
        rcases Dbl.le_total hs hx with h | h
        · exact h
        · simp [h] at hcond
      refine List.pairwise_cons.mpr ⟨?_, hsorted⟩
      intro y hy
      rcases List.mem_cons.mp hy with rfl | hy
      · exact hsle
      · exact Dbl.le_trans hsle (hhead y hy)

theorem setObj_scores (p : nodePtr) (v : robj) :
    (p.setObj v).map (fun n => n.score) =
      (p.before.reverse ++ p.cur :: p.after).map (fun n => n.score) := by
  simp [nodePtr.setObj]

theorem scoreSorted_iff_scores (l : List zskiplistNode) :
    ScoreSorted l ↔ (l.map (fun n => n.score)).Pairwise (fun a b => a.le b = true) := by
  unfold ScoreSorted
  rw [List.pairwise_map]

/-- On every map the code builds without a NaN score, the chain is in
ascending score order. -/
theorem Reach.sorted {mp : zset} (hr : Reach mp) : NoNaN mp → ScoreSorted mp.zsl.nodes := by
  induction hr with
  | create => intro _; simp [createMapObject, zslCreate, ScoreSorted]
  | set mp mp1 scoreval score value update _ hset ih =>
    intro hn
    rcases mapTypeSet_ok hset with ⟨_, _, rfl⟩ | ⟨e, ln, _, hln, _, rfl⟩
    · have hs : scoreval ≠ Dbl.nan :=
        hn { score := scoreval, obj := value }
          ((mem_zslInsertNodes _ _ _ _).mpr (Or.inl rfl))
      have hold : NoNaN mp := fun n hmem => hn n ((mem_zslInsertNodes _ _ _ _).mpr (Or.inr hmem))
      exact zslInsertNodes_sorted _ _ _ hs hold (ih hold)
    · have hc := (zslFirstFrom_chain scoreval mp.zsl.nodes [] ln hln).1
      simp only [List.reverse_nil, List.nil_append] at hc
      have hsc : (ln.setObj value).map (fun n => n.score) =
          mp.zsl.nodes.map (fun n => n.score) := by rw [setObj_scores, hc]
      have hold : NoNaN mp := by
        intro n hmem
        have h1 : n.score ∈ mp.zsl.nodes.map (fun n => n.score) := List.mem_map_of_mem _ hmem
        rw [← hsc] at h1
        obtain ⟨n1, hn1, hsn1⟩ := List.mem_map.mp h1
        rw [← hsn1]
        exact hn n1 hn1
      have := ih hold
      rw [scoreSorted_iff_scores] at this ⊢
      simpa only [hsc] using this

/-! ## Range by score -/

theorem dropWhile_eq_filter {α : Type} (R : α → α → Prop) (p : α → Bool) (l : List α)
    (hl : l.Pairwise R) (hp : ∀ x y, R x y → p x = true → p y = true) :
    l.dropWhile (fun x => !p x) = l.filter p := by
  induction l with
  | nil => rfl
  | cons x xs ih =>
    obtain ⟨hhead, htail⟩ := List.pairwise_cons.mp hl
    by_cases hx : p x = true
    · have hall : xs.filter p = xs :=
        List.filter_eq_self.mpr (fun y hy => hp x y (hhead y hy) hx)
      simp [List.dropWhile, List.filter, hx, hall]
    · have hx1 : p x = false := by simpa using hx
      simp [List.dropWhile, List.filter, hx1, ih htail]

theorem takeWhile_eq_filter {α : Type} (R : α → α → Prop) (q : α → Bool) (l : List α)
    (hl : l.Pairwise R) (hq : ∀ x y, R x y → q y = true → q x = true) :
    l.takeWhile q = l.filter q := by
  induction l with
  | nil => rfl
  | cons x xs ih =>
    obtain ⟨hhead, htail⟩ := List.pairwise_cons.mp hl
    by_cases hx : q x = true
    · simp [List.takeWhile, List.filter, hx, ih htail]
    · have hx1 : q x = false := by simpa using hx
      have hnone : xs.filter q = [] :=
        List.filter_eq_nil_iff.mpr (fun y hy hqy => hx (hq x y (hhead y hy) hqy))
      simp [List.takeWhile, List.filter, hx1, hnone]

/-- The search returns the chain from the first node with score ≥ `s` on. -/
theorem zslFirstFrom_dropWhile (s : Dbl) (l before : List zskiplistNode) :
    (match zslFirstFrom s before l with
      | none => []
      | some p => p.cur :: p.after) = l.dropWhile (fun x => !x.score.ge s) := by
  induction l generalizing before with
  | nil => rfl
  | cons x xs ih =>
    unfold zslFirstFrom
    by_cases hx : x.score.ge s = true
    · simp [hx, List.dropWhile]
    · have hx1 : x.score.ge s = false := by simpa using hx
      simp only [hx1, Bool.false_eq_true, ↓reduceIte, List.dropWhile, Bool.not_false]
      exact ih (x :: before)

theorem trangebyscoreLoop_emit (range : zrangespec) (ws wv : Int) (l : List zskiplistNode)
    (k : Nat) (c : redisClient) :
    trangebyscoreLoop range 0 ws wv l k c =
      (k + (l.takeWhile (keepScore range)).length,
        { c with reply := c.reply ++ (l.takeWhile (keepScore range)).flatMap (project ws wv) }) := by
  induction l generalizing k c with
  | nil => simp [trangebyscoreLoop]
  | cons x xs ih =>
    unfold trangebyscoreLoop
    by_cases hx : keepScore range x = true
    · have hx1 : (if range.maxex ≠ 0 then x.score.ge range.max else x.score.gt range.max)
          = false := by simpa [keepScore] using hx
      rw [hx1]
      simp only [Bool.false_eq_true, ↓reduceIte, ih, List.takeWhile, hx, emitNode_reply,
        List.length_cons, List.flatMap_cons, List.append_assoc]
      refine Prod.ext ?_ rfl
      simp only
      omega
    · have hx1 : (if range.maxex ≠ 0 then x.score.ge range.max else x.score.gt range.max)
          = true := by simpa [keepScore] using hx
      have hx2 : keepScore range x = false := by simpa using hx
      rw [hx1]
      simp [List.takeWhile, hx2]

theorem trangebyscoreLoop_count (range : zrangespec) (jc ws wv : Int) (hjc : jc ≠ 0)
    (l : List zskiplistNode) (k : Nat) (c : redisClient) :
    trangebyscoreLoop range jc ws wv l k c =
      (k + (l.takeWhile (keepScore range)).length, c) := by
  induction l generalizing k c with
  | nil => simp [trangebyscoreLoop]
  | cons x xs ih =>
    unfold trangebyscoreLoop
    by_cases hx : keepScore range x = true
    · have hx1 : (if range.maxex ≠ 0 then x.score.ge range.max else x.score.gt range.max)
          = false := by simpa [keepScore] using hx
      rw [hx1]
      simp only [Bool.false_eq_true, ↓reduceIte, ih, List.takeWhile, hx, hjc,
        List.length_cons]
      refine Prod.ext ?_ rfl
      simp only
      omega
    · have hx1 : (if range.maxex ≠ 0 then x.score.ge range.max else x.score.gt range.max)
          = true := by simpa [keepScore] using hx
      have hx2 : keepScore range x = false := by simpa using hx
      rw [hx1]
      simp [List.takeWhile, hx2]

theorem trangeRemaining_db (c : redisClient) (ws wv : Int) :
    (trangeRemaining c ws wv).1.db = c.db ∧
    ((trangeRemaining c ws wv).1.reply = c.reply ∨
      (trangeRemaining c ws wv).1.reply = c.reply ++ [Reply.syntaxerr]) := by
  unfold trangeRemaining
  split
  · split
    · exact ⟨rfl, Or.inr rfl⟩
    · exact ⟨rfl, Or.inl rfl⟩
  · exact ⟨rfl, Or.inl rfl⟩

theorem set_deferred (l t : List Reply) (a b : Reply) :
    (l ++ a :: t).set l.length b = l ++ b :: t := by
  induction l with
  | nil => rfl
  | cons x xs ih => simp [ih]

theorem zslParseBound_noNaN {h : Host} {tok : robj} {d : Dbl} {ex : Int}
    (hp : zslParseBound h tok = some (d, ex)) : d ≠ Dbl.nan := by
  unfold zslParseBound at hp
  split at hp
  all_goals
    split at hp
    · split at hp
      · cases hp
      · rename_i hnan
        cases hp
        intro hd
        subst hd
        exact hnan rfl
    · cases hp

theorem zslParseRange_noNaN {h : Host} {a b : robj} {range : zrangespec}
    (hp : zslParseRange h a b = some range) :
    range.min ≠ Dbl.nan ∧ range.max ≠ Dbl.nan := by
  unfold zslParseRange at hp
  split at hp
  · rename_i lo loex hi hiex h1 h2
    cases hp
    exact ⟨zslParseBound_noNaN h1, zslParseBound_noNaN h2⟩
  · cases hp

theorem Dbl.not_ge {a b : Dbl} (ha : a ≠ Dbl.nan) (hb : b ≠ Dbl.nan) :
    (!a.ge b) = a.lt b := by
  unfold Dbl.ge
  rcases Dbl.le_total hb ha with h | h
  · rw [h, Dbl.not_lt_of_le h]
    rfl
  · rw [h]
    cases hle : b.le a
    · rfl
    · rw [Dbl.not_lt_of_le hle] at h
      cases h

theorem Dbl.not_gt {a b : Dbl} (ha : a ≠ Dbl.nan) (hb : b ≠ Dbl.nan) :
    (!a.gt b) = a.le b := by
  unfold Dbl.gt
  rcases Dbl.le_total ha hb with h | h
  · rw [h, Dbl.not_lt_of_le h]
    rfl
  · rw [h]
    cases hle : a.le b
    · rfl
    · rw [Dbl.not_lt_of_le hle] at h
      cases h

/-- On a chain in score order without NaN, what the search and the walk
keep is what the spec's score test selects. -/
theorem walk_eq_filter (range : zrangespec) (l : List zskiplistNode)
    (hsorted : ScoreSorted l) (hl : ∀ n ∈ l, n.score ≠ Dbl.nan)
    (hmax : range.max ≠ Dbl.nan) :
    (l.dropWhile (fun x => !x.score.ge range.min)).takeWhile (keepScore range) =
      l.filter (inScoreRange range) := by
  have h1 : l.dropWhile (fun x => !x.score.ge range.min) =
      l.filter (fun x => x.score.ge range.min) :=
    dropWhile_eq_filter _ (fun x => x.score.ge range.min) l hsorted
      (fun x y hxy hx => Dbl.le_trans hx hxy)
  have hsorted1 : (l.filter (fun x => x.score.ge range.min)).Pairwise
      (fun a b => a.score.le b.score = true) := List.Pairwise.filter _ hsorted
  have h2 := takeWhile_eq_filter _ (keepScore range) _ hsorted1 (by
    intro x y hxy hy
    unfold keepScore at hy ⊢
    by_cases hex : range.maxex ≠ 0
    · rw [if_pos hex] at hy ⊢
      simp only [Bool.not_eq_true', Dbl.ge] at hy ⊢
      cases hx : range.max.le x.score
      · rfl
      · rw [Dbl.le_trans hx hxy] at hy
        cases hy
    · rw [if_neg hex] at hy ⊢
      simp only [Bool.not_eq_true', Dbl.gt] at hy ⊢
      cases hx : range.max.lt x.score
      · rfl
      · rw [Dbl.lt_of_lt_of_le hx hxy] at hy
        cases hy)
  rw [h1, h2, List.filter_filter]
  apply List.filter_congr
  intro x hx
  unfold keepScore inScoreRange
  by_cases hex : range.maxex ≠ 0
  · rw [if_pos hex, if_pos hex, Dbl.not_ge (hl x hx) hmax, Bool.and_comm]
    rfl
  · rw [if_neg hex, if_neg hex, Dbl.not_gt (hl x hx) hmax, Bool.and_comm]
    rfl

/-- C6: with an inclusive `min`, `trangebyscoreGenericCommand` (`justcount =
0`) on a map without NaN scores replies with the multi-bulk of exactly the
entries whose score `s` has `min ≤ s` and `s < max` (exclusive `max`) or
`s ≤ max` (inclusive `max`), in the ascending order of the chain, after
whatever `trangeRemaining` queued. -/
theorem trangebyscore_selects_score_range (h : Host) (c : redisClient) (mp : zset)
    (range : zrangespec) (hr : Reach mp) (hnan : NoNaN mp)
    (hlook : lookupKey c.db (c.arg 1) = some (.map mp))
    (hparse : zslParseRange h (c.arg 2) (c.arg 3) = some range)
    (_hmin : range.minex = 0) :
    trangebyscoreGenericCommand h c 0 0 =
      { (trangeRemaining c 0 1).1 with
        reply := (trangeRemaining c 0 1).1.reply ++
          Reply.multiBulkLen (((mp.zsl.nodes.filter (inScoreRange range)).length : Int) *
              ((trangeRemaining c 0 1).2.1 + (trangeRemaining c 0 1).2.2)) ::
            (mp.zsl.nodes.filter (inScoreRange range)).flatMap
              (project (trangeRemaining c 0 1).2.1 (trangeRemaining c 0 1).2.2) } ∧
    ScoreSorted (mp.zsl.nodes.filter (inScoreRange range)) := by
  have hsorted := hr.sorted hnan
  refine ⟨?_, List.Pairwise.filter _ hsorted⟩
  have hwalk := walk_eq_filter range mp.zsl.nodes hsorted hnan (zslParseRange_noNaN hparse).2
  have hd := zslFirstFrom_dropWhile range.min mp.zsl.nodes []
  unfold trangebyscoreGenericCommand
  rw [hparse]
  obtain ⟨hdb, _⟩ := trangeRemaining_db c 0 1
  generalize trangeRemaining c 0 1 = r at hdb ⊢
  obtain ⟨c1, ws, wv⟩ := r
  simp only at hdb
  have hlook1 : lookupKey c1.db (c.arg 1) = some (.map mp) := by rw [hdb]; exact hlook
  simp only [lookupMapOrReply, hlook1, zslFirstWithScore]
  cases hfirst : zslFirstFrom range.min [] mp.zsl.nodes with
  | none =>
    rw [hfirst] at hd
    rw [← hd] at hwalk
    simp only [List.takeWhile_nil] at hwalk
    simp [← hwalk, addReply, Reply.emptymultibulk]
  | some ln =>
    rw [hfirst] at hd
    simp only at hd
    rw [← hd] at hwalk
    simp only [hd, trangebyscoreLoop_emit, ne_eq, not_true_eq_false, ↓reduceIte, addReply,
      setDeferredMultiBulkLength, List.append_assoc, List.singleton_append, set_deferred,
      Nat.zero_add, ← hwalk]

/-- The literal score range of the spec: `[1.0, 3.0)` on `1:a 2:b 3:c` gives
`a`, `b`. -/
theorem trangebyscore_selects_score_range_witness :
    (trangebyscoreGenericCommand decimalHost
        (clientOn mapABC ["trangebyscore", "k", "1.0", "(3.0"]) 0 0).reply =
      [.multiBulkLen 2, .bulk "a", .bulk "b"] :=
  (congrArg redisClient.reply
    (trangebyscore_selects_score_range decimalHost
      (clientOn mapABC ["trangebyscore", "k", "1.0", "(3.0"]) mapABC
      { min := .fin 1, max := .fin 3, minex := 0, maxex := 1 }
      reach_mapABC.reach (by decide) (by decide) (by decide) (by decide)).1).trans (by decide)

/-! ## Exclusive lower bound -/

/-- C7: a `min` marked exclusive is parsed (`minex = 1`) and then not read:
on the map `1:a 2:b 3:c`, `TRANGEBYSCORE k (1 3` still emits `a`, the entry
whose score equals `min`, and `TCOUNT k (1 3` still counts it. -/
theorem exclusive_min_not_skipped :
    zslParseRange decimalHost "(1" "3" =
      some { min := .fin 1, max := .fin 3, minex := 1, maxex := 0 } ∧
    (trangebyscoreCommand decimalHost (clientOn mapABC ["trangebyscore", "k", "(1", "3"])).reply =
      [.multiBulkLen 3, .bulk "a", .bulk "b", .bulk "c"] ∧
    (tcountCommand decimalHost (clientOn mapABC ["tcount", "k", "(1", "3"])).reply =
      [.longLong 3] := by
  decide

/-! ## Count -/

/-- C8: on a map without NaN scores, `tcountCommand` with `min = -inf` and
`max = +inf`, both inclusive, replies with the map's length, the number
`TLEN` replies with. -/
theorem tcount_all_is_length (h : Host) (c : redisClient) (mp : zset)
    (hr : Reach mp) (hnan : NoNaN mp)
    (hlook : lookupKey c.db (c.arg 1) = some (.map mp))
    (hparse : zslParseRange h (c.arg 2) (c.arg 3) =
      some { min := .ninf, max := .pinf, minex := 0, maxex := 0 }) :
    (tcountCommand h c).reply =
      (trangeRemaining c 0 1).1.reply ++ [Reply.longLong mp.zsl.length] ∧
    (c.argc = 4 → (tcountCommand h c).reply = (tlenCommand c).reply) := by
  have hsorted := hr.sorted hnan
  have hwalk := walk_eq_filter { min := .ninf, max := .pinf, minex := 0, maxex := 0 }
    mp.zsl.nodes hsorted hnan (by decide)
  have hall : mp.zsl.nodes.filter
      (inScoreRange { min := .ninf, max := .pinf, minex := 0, maxex := 0 }) = mp.zsl.nodes := by
    apply List.filter_eq_self.mpr
    intro n hn
    have := hnan n hn
    unfold inScoreRange
    cases hs : n.score <;> simp_all [Dbl.le, Dbl.lt, Dbl.eq]
  rw [hall] at hwalk
  have hd := zslFirstFrom_dropWhile Dbl.ninf mp.zsl.nodes []
  have hmain : (tcountCommand h c).reply =
      (trangeRemaining c 0 1).1.reply ++ [Reply.longLong mp.zsl.length] := by
    unfold tcountCommand trangebyscoreGenericCommand
    rw [hparse]
    obtain ⟨hdb, _⟩ := trangeRemaining_db c 0 1
    generalize trangeRemaining c 0 1 = r at hdb ⊢
    obtain ⟨c1, ws, wv⟩ := r
    simp only at hdb
    have hlook1 : lookupKey c1.db (c.arg 1) = some (.map mp) := by rw [hdb]; exact hlook
    simp only [lookupMapOrReply, hlook1, zslFirstWithScore]
    cases hfirst : zslFirstFrom Dbl.ninf [] mp.zsl.nodes with
    | none =>
      rw [hfirst] at hd
      rw [← hd] at hwalk
      simp only [List.takeWhile_nil] at hwalk
      have hlen0 : mp.zsl.length = 0 := by rw [hr.sizes.2, ← hwalk]; rfl
      simp [addReply, Reply.czero, hlen0]
    | some ln =>
      rw [hfirst] at hd
      simp only at hd
      rw [← hd] at hwalk
      simp only [trangebyscoreLoop_count _ 1 _ _ (by decide), hwalk, ne_eq,
        one_ne_zero, not_false_eq_true, ↓reduceIte, addReply, Nat.zero_add, hr.sizes.2]
  refine ⟨hmain, ?_⟩
  intro hargc
  rw [hmain]
  have hrem : (trangeRemaining c 0 1).1 = c := by
    unfold trangeRemaining
    simp [hargc]
  simp [hrem, tlenCommand, lookupMapOrReply, hlook, addReply]

/-- Counting all of `1:a 2:b 3:c` gives 3, as `TLEN` does. -/
theorem tcount_all_is_length_witness :
    (tcountCommand decimalHost (clientOn mapABC ["tcount", "k", "-inf", "+inf"])).reply =
      [.longLong 3] ∧
    (tlenCommand (clientOn mapABC ["tcount", "k", "-inf", "+inf"])).reply = [.longLong 3] :=
  have hw := tcount_all_is_length decimalHost (clientOn mapABC ["tcount", "k", "-inf", "+inf"])
    mapABC reach_mapABC.reach (by decide) (by decide) (by decide)
  ⟨hw.1.trans (by decide), (hw.2 (by decide)).symm.trans (hw.1.trans (by decide))⟩

/-! ## Malformed modifier -/

/-- C9: an unknown trailing modifier does not stop the request: the syntax
error is queued by `trangeRemaining`, which returns to the command, and the
command goes on to emit the multi-bulk header and the range entries, for
`TRANGE k 0 -1 bogus` as for `TRANGEBYSCORE k 1 3 bogus`. -/
theorem malformed_modifier_still_runs_query :
    (trangeCommand decimalHost (clientOn mapABC ["trange", "k", "0", "-1", "bogus"])).map
        (fun c => c.reply) =
      .ok [.syntaxerr, .multiBulkLen 3, .bulk "a", .bulk "b", .bulk "c"] ∧
    (trangebyscoreCommand decimalHost
        (clientOn mapABC ["trangebyscore", "k", "1", "3", "bogus"])).reply =
      [.syntaxerr, .multiBulkLen 3, .bulk "a", .bulk "b", .bulk "c"] := by
  decide

/-! ## Head and tail of an empty map -/

/-- C10: `TADD k x a` (a score token that is not a double) leaves a freshly
created, empty map bound to `k`; on it `theadCommand` and `ttailCommand`
have no length check and read `ln->obj` through the `NULL` first and tail
node instead of replying with an error. -/
theorem head_tail_of_empty_map_dereference_null :
    (taddCommand decimalHost ⟨["tadd", "k", "x", "a"], [], []⟩).map (fun c => c.db) =
      .ok [("k", .map createMapObject)] ∧
    createMapObject.zsl.length = 0 ∧
    theadCommand (clientOn createMapObject ["thead", "k"]) = .error .nullDeref ∧
    ttailCommand (clientOn createMapObject ["ttail", "k"]) = .error .nullDeref := by
  decide

/-! ## `TADD` with a malformed score token -/

/-- The loop of `taddCommand` applies the pairs in front of the first
malformed score token and reports whether it met one. -/
theorem taddLoop_eq_setPairs (h : Host) : ∀ (args : List robj) (mp : zset),
    taddLoop h args mp =
      (setPairs h (parsedPairs h (pairsOf args)) mp).map (fun m =>
        (m, decide ((parsedPairs h (pairsOf args)).length = (pairsOf args).length)))
  | [], mp => by simp [taddLoop, pairsOf, parsedPairs, setPairs, Except.map]
  | [_], mp => by simp [taddLoop, pairsOf, parsedPairs, setPairs, Except.map]
  | score :: value :: rest, mp => by
    unfold taddLoop
    cases hp : h.getDoubleFromObject score with
    | none =>
      simp only [pairsOf, parsedPairs, List.takeWhile, hp, Option.isSome_none, setPairs,
        Except.map, List.length_nil, List.length_cons]
      simp
    | some scoreval =>
      simp only [pairsOf, parsedPairs, List.takeWhile, hp, Option.isSome_some, setPairs,
        List.length_cons]
      cases hset : mapTypeSet mp scoreval score value with
      | error e => simp [Except.map]
      | ok r =>
        simp only
        rw [taddLoop_eq_setPairs h rest r.1]
        simp [parsedPairs]

/-- C11 as stated fails: in `TADD k 4 d x e` on the map `1:a 2:b 3:c` the
token `x` is not a double, yet the pair `4 d` in front of it is applied: the
request is answered with the error and the map bound to `k` has become
`1:a 2:b 3:c 4:d`. -/
theorem tadd_not_atomic :
    decimalHost.getDoubleFromObject "x" = none ∧
    (taddCommand decimalHost (clientOn mapABC ["tadd", "k", "4", "d", "x", "e"])).map
        (fun c => (c.db, c.reply)) =
      .ok ([("k", .map mapABCD)], [.error "value is not a double"]) ∧
    mapABCD ≠ mapABC := by
  decide

theorem lookupKey_dbSet (db : redisDb) (key : robj) (o : dbObj) :
    lookupKey (dbSet db key o) key = some o := by
  unfold dbSet
  cases hl : lookupKey db key with
  | none =>
    have hnone : db.find? (fun kv => kv.1 == key) = none := by
      unfold lookupKey at hl
      simpa using hl
    simp [lookupKey, List.find?_append, hnone]
  | some o1 =>
    unfold lookupKey at hl ⊢
    simp only
    induction db with
    | nil => simp at hl
    | cons x xs ih =>
      by_cases hx : x.1 = key
      · simp [List.find?, hx]
      · have hx1 : (x.1 == key) = false := by simpa using hx
        rw [List.find?_cons, hx1] at hl
        simp only [List.map_cons, hx1, Bool.false_eq_true, ↓reduceIte, List.find?_cons]
        exact ih hl

theorem lookupKey_append_free (db : redisDb) (key : robj) (o : dbObj)
    (hfree : lookupKey db key = none) : lookupKey (db ++ [(key, o)]) key = some o := by
  have hnone : db.find? (fun kv => kv.1 == key) = none := by
    unfold lookupKey at hfree
    simpa using hfree
  simp [lookupKey, List.find?_append, hnone]

theorem dbSet_free_twice (db : redisDb) (key : robj) (o1 o2 : dbObj)
    (hfree : lookupKey db key = none) :
    dbSet (dbSet db key o1) key o2 = db ++ [(key, o2)] := by
  have h1 : dbSet db key o1 = db ++ [(key, o1)] := by
    unfold dbSet
    rw [hfree]
  have hnone : db.find? (fun kv => kv.1 == key) = none := by
    unfold lookupKey at hfree
    simpa using hfree
  have hall : ∀ kv ∈ db, (kv.1 == key) = false := by
    intro kv hkv
    have := List.find?_eq_none.mp hnone kv hkv
    simpa using this
  rw [h1]
  unfold dbSet
  rw [lookupKey_append_free db key o1 hfree]
  simp only [List.map_append, List.map_cons, List.map_nil, beq_self_eq_true, ↓reduceIte]
  congr 1
  rw [List.map_congr_left (g := id)]
  · simp
  · intro kv hkv
    simp [hall kv hkv]

/-- C11 amended: `taddCommand` parses and applies pair by pair, on the map
bound to the key or, when the key is free, on a new empty map it binds
first: the pairs in front of the first score token that is not a double are
applied in order by `mapTypeSet` and stay applied, that pair and the pairs
after it are not applied, and the reply is `OK` when every token parsed and
the error otherwise. When the first score token fails no pair is applied:
a bound map keeps its contents and on a free key the new empty map stays
bound. A key holding another type gets the wrong-type reply only. -/
theorem tadd_applies_pairs_before_bad_score (h : Host) (c : redisClient)
    (heven : c.argc % 2 = 0) :
    taddCommand h c =
      (match lookupKey c.db (c.arg 1) with
      | some .other => .ok (addReply c .wrongtypeerr)
      | some (.map mp) =>
        match setPairs h (parsedPairs h (pairsOf (c.argv.drop 2))) mp with
        | .error e => .error e
        | .ok mp1 =>
          .ok (addReply { c with db := dbSet c.db (c.arg 1) (.map mp1) }
            (if (parsedPairs h (pairsOf (c.argv.drop 2))).length =
                (pairsOf (c.argv.drop 2)).length
              then Reply.ok else Reply.error "value is not a double"))
      | none =>
        match setPairs h (parsedPairs h (pairsOf (c.argv.drop 2))) createMapObject with
        | .error e => .error e
        | .ok mp1 =>
          .ok (addReply { c with db := c.db ++ [(c.arg 1, .map mp1)] }
            (if (parsedPairs h (pairsOf (c.argv.drop 2))).length =
                (pairsOf (c.argv.drop 2)).length
              then Reply.ok else Reply.error "value is not a double"))) ∧
    (∀ mp1, lookupKey (dbSet c.db (c.arg 1) (.map mp1)) (c.arg 1) = some (.map mp1)) ∧
    (lookupKey c.db (c.arg 1) = none →
      ∀ mp1, lookupKey (c.db ++ [(c.arg 1, .map mp1)]) (c.arg 1) = some (.map mp1)) ∧
    (∀ score value rest, c.argv.drop 2 = score :: value :: rest →
      h.getDoubleFromObject score = none →
      parsedPairs h (pairsOf (c.argv.drop 2)) = []) ∧
    (parsedPairs h (pairsOf (c.argv.drop 2)) = [] →
      ∀ mp, setPairs h (parsedPairs h (pairsOf (c.argv.drop 2))) mp = .ok mp) := by
  refine ⟨?_, fun mp1 => lookupKey_dbSet _ _ _,
    fun hfree mp1 => lookupKey_append_free _ _ _ hfree, ?_, ?_⟩
  · unfold taddCommand
    have hodd : ¬ c.argc % 2 = 1 := by omega
    simp only [hodd, ↓reduceIte, mapTypeLookupWriteOrCreate]
    cases hlook : lookupKey c.db (c.arg 1) with
    | none =>
      simp only [taddLoop_eq_setPairs]
      cases setPairs h (parsedPairs h (pairsOf (c.argv.drop 2))) createMapObject with
      | error e => rfl
      | ok mp1 =>
        simp only [Except.map, dbSet_free_twice _ _ _ _ hlook]
        split <;> simp_all
    | some o =>
      cases o with
      | other => rfl
      | map mp =>
        simp only [taddLoop_eq_setPairs]
        cases setPairs h (parsedPairs h (pairsOf (c.argv.drop 2))) mp with
        | error e => rfl
        | ok mp1 =>
          simp only [Except.map]
          split <;> simp_all
  · intro score value rest hargs hbad
    rw [hargs]
    simp [pairsOf, parsedPairs, List.takeWhile, hbad]
  · intro hnil mp
    rw [hnil]
    rfl

/-- `TADD k 4 d x e` on `1:a 2:b 3:c`: the pair `4 d` is the parsed part and
is applied, the reply is the error. `TADD k x a 1 b`, whose first score token
fails: on a free key the new empty map is left bound, on `1:a 2:b 3:c` the
map keeps its contents. -/
theorem tadd_applies_pairs_before_bad_score_witness :
    parsedPairs decimalHost (pairsOf ["4", "d", "x", "e"]) = [("4", "d")] ∧
    taddCommand decimalHost (clientOn mapABC ["tadd", "k", "4", "d", "x", "e"]) =
      .ok { argv := ["tadd", "k", "4", "d", "x", "e"], db := [("k", .map mapABCD)],
            reply := [.error "value is not a double"] } ∧
    parsedPairs decimalHost (pairsOf ["x", "a", "1", "b"]) = [] ∧
    taddCommand decimalHost ⟨["tadd", "k", "x", "a", "1", "b"], [], []⟩ =
      .ok { argv := ["tadd", "k", "x", "a", "1", "b"], db := [("k", .map createMapObject)],
            reply := [.error "value is not a double"] } ∧
    taddCommand decimalHost (clientOn mapABC ["tadd", "k", "x", "a", "1", "b"]) =
      .ok { argv := ["tadd", "k", "x", "a", "1", "b"], db := [("k", .map mapABC)],
            reply := [.error "value is not a double"] } :=
  ⟨by decide,
   (tadd_applies_pairs_before_bad_score decimalHost
      (clientOn mapABC ["tadd", "k", "4", "d", "x", "e"]) (by decide)).1.trans (by decide),
   (tadd_applies_pairs_before_bad_score decimalHost
      ⟨["tadd", "k", "x", "a", "1", "b"], [], []⟩ (by decide)).2.2.2.1 "x" "a" ["1", "b"]
      (by decide) (by decide),
   (tadd_applies_pairs_before_bad_score decimalHost
      ⟨["tadd", "k", "x", "a", "1", "b"], [], []⟩ (by decide)).1.trans (by decide),
   (tadd_applies_pairs_before_bad_score decimalHost
      (clientOn mapABC ["tadd", "k", "x", "a", "1", "b"]) (by decide)).1.trans (by decide)⟩

/-! ## Setting the same pair twice -/

/-- C12: the second of two identical `mapTypeSet` calls does not always leave
the skip list as the first left it. On the map `1:a` (token `1`), the first
call with score 1.0, token `1.0` and value `b` inserts a second node of score
1 behind the node holding `a`; the second call finds the token, takes the
first node of score 1, the one holding `a`, and overwrites it: the chain goes
from `(1,a) (1,b)` to `(1,b) (1,b)`. Length, dict and `mapTypeGet` are
unchanged. -/
theorem second_identical_set_rewrites_other_node :
    mapTypeSet mapOneA (.fin 1) "1.0" "b" = .ok (mapTwoTokens, 1) ∧
    mapTypeSet mapTwoTokens (.fin 1) "1.0" "b" = .ok (mapTwoTokensAgain, 0) ∧
    mapTwoTokensAgain.zsl.nodes ≠ mapTwoTokens.zsl.nodes ∧
    mapTwoTokensAgain.dict = mapTwoTokens.dict ∧
    mapTwoTokensAgain.zsl.length = mapTwoTokens.zsl.length ∧
    mapTypeGet mapTwoTokensAgain "1.0" = some "b" := by
  decide

/-! ## Update keeps ranks -/

theorem strcasecmpChars_same (a b : List Char)
    (h : a.map Char.toLower = b.map Char.toLower) : strcasecmpChars a b = 0 := by
  induction a generalizing b with
  | nil =>
    cases b with
    | nil => rfl
    | cons y ys => simp at h
  | cons x xs ih =>
    cases b with
    | nil => simp at h
    | cons y ys =>
      simp only [List.map_cons, List.cons.injEq] at h
      simp [strcasecmpChars, h.1, ih ys h.2]

theorem toLower_nul (ch : Char) (h : ch.toNat = 0) : ch.toLower.toNat = 0 := by
  have hch : ch = Char.ofNat 0 := by
    rw [← Char.ofNat_toNat ch, h]
  subst hch
  decide

theorem cstr_of_lower (tok : robj) (lit : List Char)
    (hlit : ∀ ch ∈ lit, ch.toNat ≠ 0) (h : tok.data.map Char.toLower = lit) :
    cstr tok = tok.data := by
  unfold cstr
  apply List.takeWhile_eq_self_iff.mpr
  intro ch hch
  have hmem : ch.toLower ∈ lit := by
    rw [← h]
    exact List.mem_map_of_mem _ hch
  have hne := hlit _ hmem
  simp only [ne_eq, decide_not, Bool.not_eq_true', decide_eq_false_iff_not]
  intro h0
  exact hne (toLower_nul ch h0)

theorem strcasecmp_withscores (tok : robj) (h : sameIgnoringCase tok "withscores" = true) :
    strcasecmp tok "withscores" = 0 := by
  have h1 : tok.data.map Char.toLower = "withscores".data.map Char.toLower := by
    simpa [sameIgnoringCase] using h
  unfold strcasecmp
  rw [cstr_of_lower tok ("withscores".data.map Char.toLower) (by decide) h1]
  exact strcasecmpChars_same _ _ h1

theorem strcasecmp_novalues (tok : robj) (h : sameIgnoringCase tok "novalues" = true) :
    strcasecmp tok "novalues" = 0 ∧ strcasecmp tok "withscores" ≠ 0 := by
  have h1 : tok.data.map Char.toLower = "novalues".data.map Char.toLower := by
    simpa [sameIgnoringCase] using h
  have hc := cstr_of_lower tok ("novalues".data.map Char.toLower) (by decide) h1
  refine ⟨?_, ?_⟩
  · unfold strcasecmp
    rw [hc]
    exact strcasecmpChars_same _ _ h1
  · unfold strcasecmp
    rw [hc]
    cases hd : tok.data with
    | nil => rw [hd] at h1; simp at h1
    | cons x xs =>
      rw [hd] at h1
      have hx : x.toLower = 'n' := by
        have := (List.cons.inj h1).1
        simpa using this
      have : "withscores".data = 'w' :: "ithscores".data := by decide
      rw [this]
      simp only [strcasecmpChars, hx]
      have hnw : ¬ ('n' = 'w'.toLower) := by decide
      rw [if_neg hnw]
      decide

/-- The modifier loop on tokens that are all `withscores` or `novalues`. -/
theorem trangeRemainingLoop_known (mods : List robj) (ws wv : Int)
    (hmods : ∀ m ∈ mods, sameIgnoringCase m "withscores" = true ∨
      sameIgnoringCase m "novalues" = true) :
    trangeRemainingLoop mods ws wv =
      (false, if mods = [] then ws else 1,
        if mods.any (fun m => sameIgnoringCase m "novalues") then 0 else wv) := by
  induction mods generalizing ws wv with
  | nil => simp [trangeRemainingLoop]
  | cons m rest ih =>
    have hrest := fun x hx => hmods x (List.mem_cons_of_mem _ hx)
    unfold trangeRemainingLoop
    by_cases hnov : sameIgnoringCase m "novalues" = true
    · obtain ⟨h1, h2⟩ := strcasecmp_novalues m hnov
      simp only [h2, ↓reduceIte, h1, ih 1 0 hrest, List.any_cons, hnov, Bool.true_or,
        reduceCtorEq]
      by_cases hr : rest = [] <;> simp [hr]
    · have hws : sameIgnoringCase m "withscores" = true := by
        rcases hmods m (List.mem_cons_self _ _) with h | h
        · exact h
        · exact absurd h hnov
      have hnov1 : sameIgnoringCase m "novalues" = false := by simpa using hnov
      simp only [strcasecmp_withscores m hws, ↓reduceIte, ih 1 wv hrest, List.any_cons, hnov1,
        Bool.false_or, reduceCtorEq]
      by_cases hr : rest = [] <;> simp [hr]

/-- C14: on trailing modifiers that are all `withscores` or `novalues` in any
case, `trangeRemaining` started from `(withscores, withvalues) = (0, 1)`
queues nothing and ends with `(0, 1)` for no modifier, `(1, 1)` for
`withscores` without `novalues` and `(1, 0)` as soon as one `novalues` is
there, so one of the two flags is always 1; and an entry is emitted as its
score when `withscores`, followed by its value when `withvalues`. -/
theorem projection_flags (c : redisClient)
    (hmods : ∀ m ∈ c.argv.drop 4, sameIgnoringCase m "withscores" = true ∨
      sameIgnoringCase m "novalues" = true) :
    trangeRemaining c 0 1 =
      (c, if c.argv.drop 4 = [] then 0 else 1,
        if (c.argv.drop 4).any (fun m => sameIgnoringCase m "novalues") then 0 else 1) ∧
    ((trangeRemaining c 0 1).2.1 = 1 ∨ (trangeRemaining c 0 1).2.2 = 1) ∧
    (∀ (c1 : redisClient) (n : zskiplistNode),
      emitNode c1 n (trangeRemaining c 0 1).2.1 (trangeRemaining c 0 1).2.2 =
        { c1 with reply := c1.reply ++
          (if (trangeRemaining c 0 1).2.1 = 1 then [Reply.double n.score] else []) ++
          (if (trangeRemaining c 0 1).2.2 = 1 then [Reply.bulk n.obj] else []) }) := by
  have hmain : trangeRemaining c 0 1 =
      (c, if c.argv.drop 4 = [] then 0 else 1,
        if (c.argv.drop 4).any (fun m => sameIgnoringCase m "novalues") then 0 else 1) := by
    unfold trangeRemaining
    by_cases hargc : c.argc > 4
    · have hne : c.argv.drop 4 ≠ [] := by
        intro h0
        have := congrArg List.length h0
        simp only [List.length_drop, List.length_nil] at this
        unfold redisClient.argc at hargc
        omega
      simp only [hargc, ↓reduceIte, trangeRemainingLoop_known _ 0 1 hmods, hne]
      split <;> simp
    · have he : c.argv.drop 4 = [] := by
        apply List.drop_eq_nil_iff.mpr
        unfold redisClient.argc at hargc
        omega
      simp [hargc, he]
  refine ⟨hmain, ?_, ?_⟩
  · rw [hmain]
    simp only
    by_cases hnov : (c.argv.drop 4).any (fun m => sameIgnoringCase m "novalues") = true
    · have hne : c.argv.drop 4 ≠ [] := by
        intro h0
        rw [h0] at hnov
        simp at hnov
      simp [hne]
    · simp [hnov]
  · intro c1 n
    rw [hmain, emitNode_reply]
    simp only [project]
    by_cases he : c.argv.drop 4 = [] <;>
      by_cases hnov : (c.argv.drop 4).any (fun m => sameIgnoringCase m "novalues") = true <;>
      simp [he, hnov]

/-- The three forms of `TRANGE k 0 -1 <flag>` of the source's comment. -/
theorem projection_flags_witness :
    trangeRemaining (clientOn mapABC ["trange", "k", "0", "-1"]) 0 1 =
      (clientOn mapABC ["trange", "k", "0", "-1"], 0, 1) ∧
    trangeRemaining (clientOn mapABC ["trange", "k", "0", "-1", "WithScores"]) 0 1 =
      (clientOn mapABC ["trange", "k", "0", "-1", "WithScores"], 1, 1) ∧
    trangeRemaining (clientOn mapABC ["trange", "k", "0", "-1", "withscores", "NOVALUES"]) 0 1 =
      (clientOn mapABC ["trange", "k", "0", "-1", "withscores", "NOVALUES"], 1, 0) :=
  ⟨(projection_flags (clientOn mapABC ["trange", "k", "0", "-1"]) (by decide)).1.trans
      (by decide),
   (projection_flags (clientOn mapABC ["trange", "k", "0", "-1", "WithScores"])
      (by decide)).1.trans (by decide),
   (projection_flags (clientOn mapABC ["trange", "k", "0", "-1", "withscores", "NOVALUES"])
      (by decide)).1.trans (by decide)⟩

/-! ## NaN scores -/

theorem mapTypeSet_returns {h : Host} {mp : zset} {scoreval : Dbl} {score : robj}
    (value : robj) (hr : ReachVia h mp) (hp : h.getDoubleFromObject score = some scoreval)
    (hn : scoreval ≠ Dbl.nan) :
    ∃ mp1 update, mapTypeSet mp scoreval score value = .ok (mp1, update) := by
  cases hfind : dictFind mp.dict score with
  | none =>
    exact ⟨{ dict := dictAdd mp.dict score value, zsl := zslInsert mp.zsl scoreval value }, 1,
      by simp [mapTypeSet, hfind]⟩
  | some e =>
    obtain ⟨hkey, hmem⟩ := dictFind_key hfind
    obtain ⟨s, hs, n, hnmem, hns⟩ := hr.key_has_node e hmem
    rw [hkey, hp] at hs
    have hs1 : s = scoreval := (Option.some.inj hs).symm
    subst hs1
    obtain ⟨ln, hln⟩ := zslFirstFrom_some s mp.zsl.nodes []
      ⟨n, hnmem, by rw [hns]; exact Dbl.ge_self hn⟩
    exact ⟨{ dict := dictSetEntryVal mp.dict score value,
             zsl := { nodes := ln.setObj value, length := mp.zsl.length } }, 0,
      by simp [mapTypeSet, hfind, zslFirstWithScore, hln]⟩

/-- C15 as stated fails: `mapTypeSet` with a NaN score, token `nan` and value
`a` on the empty map does not fail and does mutate: it returns 1 and the map
holds a node of score NaN and a dict entry. -/
theorem mapTypeSet_accepts_nan :
    mapTypeSet createMapObject .nan "nan" "a" = .ok (mapNaN, 1) ∧
    mapNaN ≠ createMapObject ∧
    mapNaN.zsl.nodes = [{ score := .nan, obj := "a" }] := by
  decide

/-- C15 amended: `mapTypeSet` does not test its score and has no
invalid-score outcome: a NaN score with a token that is not in the dict is
inserted, a node and a dict entry are added and the call returns; and for
every non-NaN score passed with the token that denotes it, on a map built
that way, the call never fails. -/
theorem mapTypeSet_does_not_check_score (h : Host) (mp : zset) (scoreval : Dbl)
    (score value : robj) :
    (dictFind mp.dict score = none →
      ∃ mp1, mapTypeSet mp .nan score value = .ok (mp1, 1) ∧
        ({ score := .nan, obj := value } : zskiplistNode) ∈ mp1.zsl.nodes ∧
        mapTypeGet mp1 score = some value ∧
        mp1.zsl.length = mp.zsl.length + 1 ∧ dictSize mp1.dict = dictSize mp.dict + 1) ∧
    (ReachVia h mp → h.getDoubleFromObject score = some scoreval → scoreval ≠ Dbl.nan →
      ∃ mp1 update, mapTypeSet mp scoreval score value = .ok (mp1, update) ∧
        ReachVia h mp1) := by
  refine ⟨?_, ?_⟩
  · intro hnew
    refine ⟨{ dict := dictAdd mp.dict score value, zsl := zslInsert mp.zsl .nan value }, ?_,
      ?_, ?_, rfl, dictSize_dictAdd _ _ _ hnew⟩
    · simp [mapTypeSet, hnew]
    · exact (mem_zslInsertNodes _ _ _ _).mpr (Or.inl rfl)
    · simp [mapTypeGet, dictFind_dictAdd _ _ _ hnew]
  · intro hr hp hn
    obtain ⟨mp1, update, hset⟩ := mapTypeSet_returns value hr hp hn
    exact ⟨mp1, update, hset, ReachVia.set mp mp1 scoreval score value update hr hp hset⟩

/-- On the empty map: the NaN score is inserted, and the score 5.0 given
with its token `5.0` is set without failure. -/
theorem mapTypeSet_does_not_check_score_witness :
    (∃ mp1, mapTypeSet createMapObject .nan "nan" "a" = .ok (mp1, 1) ∧
        ({ score := .nan, obj := "a" } : zskiplistNode) ∈ mp1.zsl.nodes ∧
        mapTypeGet mp1 "nan" = some "a" ∧
        mp1.zsl.length = createMapObject.zsl.length + 1 ∧
        dictSize mp1.dict = dictSize createMapObject.dict + 1) ∧
    (∃ mp1 update, mapTypeSet createMapObject (.fin 5) "5.0" "a" = .ok (mp1, update) ∧
        ReachVia decimalHost mp1) :=
  have hw := mapTypeSet_does_not_check_score decimalHost createMapObject (.fin 5) "5.0" "a"
  ⟨(mapTypeSet_does_not_check_score decimalHost createMapObject (.fin 5) "nan" "a").1
      (by decide),
   hw.2 ReachVia.create (by decide) (by decide)⟩

/-! ## Two values at one score -/

theorem zslInsertNodes_fresh (s : Dbl) (v : robj) (l : List zskiplistNode)
    (hfresh : ∀ n ∈ l, n.score.eq s = false) :
    zslInsertNodes s v l =
      l.takeWhile (fun x => x.score.lt s) ++
        { score := s, obj := v } :: l.dropWhile (fun x => x.score.lt s) := by
  induction l with
  | nil => rfl
  | cons x xs ih =>
    have hx : x.score.eq s = false := hfresh x (List.mem_cons_self _ _)
    have hxs : ∀ n ∈ xs, n.score.eq s = false := fun n hn => hfresh n (List.mem_cons_of_mem _ hn)
    unfold zslInsertNodes
    cases hlt : x.score.lt s
    · simp [hx, List.takeWhile, List.dropWhile, hlt]
    · simp [List.takeWhile, List.dropWhile, hlt, ih hxs]

theorem zslFirstFrom_after_smaller (s : Dbl) (n : zskiplistNode)
    (pre post before : List zskiplistNode)
    (hpre : ∀ x ∈ pre, x.score.lt s = true) (hn : n.score.ge s = true) :
    zslFirstFrom s before (pre ++ n :: post) =
      some { before := pre.reverse ++ before, cur := n, after := post } := by
  induction pre generalizing before with
  | nil => simp [zslFirstFrom, hn]
  | cons x xs ih =>
    have hx : x.score.ge s = false := by
      have hlt := hpre x (List.mem_cons_self _ _)
      cases hge : x.score.ge s
      · rfl
      · have := Dbl.not_lt_of_le (a := s) (b := x.score) hge
        rw [hlt] at this
        cases this
    have hrec := ih (x :: before) (fun y hy => hpre y (List.mem_cons_of_mem _ hy))
    simp only [List.cons_append, zslFirstFrom, hx, Bool.false_eq_true, ↓reduceIte]
    simp only [List.reverse_cons, List.append_assoc, List.singleton_append]
    exact hrec

theorem takeWhile_lt_spec (s : Dbl) (l : List zskiplistNode) :
    ∀ x ∈ l.takeWhile (fun x => x.score.lt s), x.score.lt s = true ∧ x ∈ l := by
  induction l with
  | nil => simp
  | cons y ys ih =>
    intro x hx
    cases hy : y.score.lt s
    · simp [List.takeWhile, hy] at hx
    · simp only [List.takeWhile, hy, List.mem_cons] at hx
      rcases hx with rfl | hx
      · exact ⟨hy, List.mem_cons_self _ _⟩
      · exact ⟨(ih x hx).1, List.mem_cons_of_mem _ (ih x hx).2⟩

theorem dropWhile_lt_mem (s : Dbl) (l : List zskiplistNode) :
    ∀ x ∈ l.dropWhile (fun x => x.score.lt s), x ∈ l := by
  intro x hx
  have hsplit := List.takeWhile_append_dropWhile (fun x : zskiplistNode => x.score.lt s) (l := l)
  rw [← hsplit]
  exact List.mem_append_right _ hx

theorem dictSetEntryVal_dictAdd (d : dict) (k v1 v2 : robj) (h : dictFind d k = none) :
    dictSetEntryVal (dictAdd d k v1) k v2 = dictAdd d k v2 := by
  have hne := dictFind_none h
  unfold dictAdd
  rw [h]
  simp only [dictSetEntryVal, List.map_append, List.map_cons, List.map_nil, beq_self_eq_true,
    ↓reduceIte]
  congr 2
  rw [List.map_congr_left (g := id)]
  · simp
  · intro e he
    have : (e.key == k) = false := by simpa using hne e he
    simp [this]

/-- C16 as stated fails: adding `(1, a)` and then `(1, b)` to the empty map
under the token `1` leaves the single entry `1:b`, and the other order leaves
`1:a`: range results show one entry, not both, and differ with the order of
insertion. -/
theorem equal_score_second_value_replaces :
    mapTypeSet createMapObject (.fin 1) "1" "a" = .ok (mapOneA, 1) ∧
    mapTypeSet mapOneA (.fin 1) "1" "b" = .ok (mapOneB, 0) ∧
    mapTypeSet createMapObject (.fin 1) "1" "b" = .ok (mapOneB, 1) ∧
    mapTypeSet mapOneB (.fin 1) "1" "a" = .ok (mapOneA, 0) ∧
    (trangeGenericCommand (clientOn mapOneB ["trange", "k", "0", "-1"]) 0 (-1) 0 1 0).map
        (fun c => c.reply) = .ok [.multiBulkLen 1, .bulk "b"] ∧
    (trangeGenericCommand (clientOn mapOneA ["trange", "k", "0", "-1"]) 0 (-1) 0 1 0).map
        (fun c => c.reply) = .ok [.multiBulkLen 1, .bulk "a"] ∧
    (trangebyscoreCommand decimalHost (clientOn mapOneB ["trangebyscore", "k", "1", "1"])).reply =
      [.multiBulkLen 1, .bulk "b"] := by
  decide

/-- C16 amended: for a (non-NaN) score `s` no entry of the map carries and a
token not in the dict, adding `(s, v1)` and then `(s, v2)` under that token
gives exactly the map that adding `(s, v2)` alone gives: the second call is
an update, one entry remains at `s` and it holds the value added last. -/
theorem second_value_at_score_replaces_first (mp : zset) (scoreval : Dbl)
    (score v1 v2 : robj) (hnew : dictFind mp.dict score = none)
    (hfresh : ∀ n ∈ mp.zsl.nodes, n.score.eq scoreval = false)
    (hs : scoreval ≠ Dbl.nan) :
    ∃ mp1 mp2, mapTypeSet mp scoreval score v1 = .ok (mp1, 1) ∧
      mapTypeSet mp1 scoreval score v2 = .ok (mp2, 0) ∧
      mapTypeSet mp scoreval score v2 = .ok (mp2, 1) ∧
      mapTypeGet mp2 score = some v2 ∧
      mp2.zsl.nodes.filter (fun n => n.score.eq scoreval) =
        [{ score := scoreval, obj := v2 }] := by
  have hins1 := zslInsertNodes_fresh scoreval v1 mp.zsl.nodes hfresh
  have hins2 := zslInsertNodes_fresh scoreval v2 mp.zsl.nodes hfresh
  have hpre : ∀ x ∈ mp.zsl.nodes.takeWhile (fun x => x.score.lt scoreval),
      x.score.lt scoreval = true := fun x hx => (takeWhile_lt_spec scoreval _ x hx).1
  have hfirst := zslFirstFrom_after_smaller scoreval { score := scoreval, obj := v1 }
    (mp.zsl.nodes.takeWhile (fun x => x.score.lt scoreval))
    (mp.zsl.nodes.dropWhile (fun x => x.score.lt scoreval)) [] hpre (Dbl.ge_self hs)
  refine ⟨{ dict := dictAdd mp.dict score v1, zsl := zslInsert mp.zsl scoreval v1 },
    { dict := dictAdd mp.dict score v2, zsl := zslInsert mp.zsl scoreval v2 }, ?_, ?_, ?_, ?_, ?_⟩
  · simp [mapTypeSet, hnew]
  · simp only [mapTypeSet, dictFind_dictAdd _ _ _ hnew, zslFirstWithScore, zslInsert, hins1,
      hfirst, nodePtr.setObj, hins2, dictSetEntryVal_dictAdd _ _ _ _ hnew]
    simp
  · simp [mapTypeSet, hnew]
  · simp [mapTypeGet, dictFind_dictAdd _ _ _ hnew]
  · simp only [zslInsert, hins2, List.filter_append, List.filter_cons]
    have h1 : (mp.zsl.nodes.takeWhile (fun x => x.score.lt scoreval)).filter
        (fun n => n.score.eq scoreval) = [] :=
      List.filter_eq_nil_iff.mpr (fun n hn => by
        simp [hfresh n (takeWhile_lt_spec scoreval _ n hn).2])
    have h2 : (mp.zsl.nodes.dropWhile (fun x => x.score.lt scoreval)).filter
        (fun n => n.score.eq scoreval) = [] :=
      List.filter_eq_nil_iff.mpr (fun n hn => by
        simp [hfresh n (dropWhile_lt_mem scoreval _ n hn)])
    have h3 : scoreval.eq scoreval = true := by
      cases scoreval <;> simp [Dbl.eq] at hs ⊢
    simp [h1, h2, h3]

/-- On the map `1:a 2:b 3:c` with the new score 4: adding `4:x` and then
`4:d` gives the map `1:a 2:b 3:c 4:d`. -/
theorem second_value_at_score_replaces_first_witness :
    ∃ mp1 mp2, mapTypeSet mapABC (.fin 4) "4" "x" = .ok (mp1, 1) ∧
      mapTypeSet mp1 (.fin 4) "4" "d" = .ok (mp2, 0) ∧
      mapTypeSet mapABC (.fin 4) "4" "d" = .ok (mp2, 1) ∧
      mapTypeGet mp2 "4" = some "d" ∧
      mp2.zsl.nodes.filter (fun n => n.score.eq (.fin 4)) = [{ score := .fin 4, obj := "d" }] :=
  second_value_at_score_replaces_first mapABC (.fin 4) "4" "x" "d" (by decide) (by decide)
    (by decide)

/-! ## Range by rank in both directions -/

/-- Going backward from a node, `k` rounds of the reply loop emit the node
and the `k - 1` nodes before it, nearest first, provided there are that
many. -/
theorem trangeLoop_backward (ws wv rev : Int) (hrev : rev ≠ 0) (k : Nat) (p : nodePtr)
    (c : redisClient) (hk : k ≤ p.before.length + 1) :
    trangeLoop ws wv rev k (some p) c =
      .ok { c with reply := c.reply ++ ((p.cur :: p.before).take k).flatMap (project ws wv) } := by
  induction k generalizing p c with
  | zero => simp [trangeLoop]
  | succ k ih =>
    cases k with
    | zero =>
      simp [trangeLoop, emitNode_reply]
    | succ k =>
      unfold trangeLoop
      simp only [ne_eq, hrev, not_false_eq_true, ↓reduceIte]
      cases hbefore : p.before with
      | nil => rw [hbefore] at hk; simp at hk
      | cons x xs =>
        have hb : p.backward = some { before := xs, cur := x, after := p.cur :: p.after } := by
          simp [nodePtr.backward, hbefore]
        rw [hb, ih _ _ (by rw [hbefore] at hk; simpa using hk)]
        simp [emitNode_reply, List.flatMap_cons]

/-- The starting node of a range by rank and the chain seen from it in the
direction of travel. -/
theorem trange_start (l : List zskiplistNode) (rev : Int) (s : Nat) (hs : s < l.length) :
    ∃ p, nodeAt [] l (if rev ≠ 0 then l.length - 1 - s else s) = some p ∧
      (if rev ≠ 0 then p.cur :: p.before else p.cur :: p.after) =
        (if rev ≠ 0 then l.reverse else l).drop s := by
  by_cases hrev : rev ≠ 0
  · simp only [if_pos hrev]
    obtain ⟨p, hp, hd, hb⟩ := nodeAt_some l [] (l.length - 1 - s) (by omega)
    refine ⟨p, hp, ?_⟩
    rw [List.drop_reverse, hb, List.append_nil]
    have hcur : l.take (l.length - s) = l.take (l.length - 1 - s) ++ [p.cur] := by
      have h1 : l.length - s = (l.length - 1 - s) + 1 := by omega
      rw [h1, List.take_succ]
      congr 1
      have h2 := congrArg List.head? hd
      simp only [List.head?_cons, List.head?_drop] at h2
      rw [← h2]
      rfl
    rw [hcur]
    simp
  · simp only [if_neg hrev]
    obtain ⟨p, hp, hd, _⟩ := nodeAt_some l [] s hs
    exact ⟨p, hp, hd⟩

/-- What `trangeGenericCommand` replies, in either direction, when the
length fits an `int`: the declared length is left as the `int` product the
code computes. -/
theorem trangeGeneric_reply (c : redisClient) (mp : zset) (start end_ ws wv rev : Int)
    (hlook : lookupKey c.db (c.arg 1) = some (.map mp))
    (hlen : mp.zsl.length = mp.zsl.nodes.length)
    (hstart : -2 ^ 31 ≤ start ∧ start < 2 ^ 31) (hend : -2 ^ 31 ≤ end_ ∧ end_ < 2 ^ 31)
    (hws : ws = 0 ∨ ws = 1) (hwv : wv = 0 ∨ wv = 1)
    (hsmall : (mp.zsl.nodes.length : Int) < 2 ^ 31) :
    trangeGenericCommand c start end_ ws wv rev =
      .ok { c with reply := c.reply ++
        match resolveRank mp.zsl.nodes.length start end_ with
        | none => [Reply.emptymultibulk]
        | some (s, e) =>
          Reply.multiBulkLen (toInt32 (((e - s + 1 : Nat) : Int) * (ws + wv))) ::
            (((if rev ≠ 0 then mp.zsl.nodes.reverse else mp.zsl.nodes).drop s).take
              (e - s + 1)).flatMap (project ws wv) } := by
  unfold trangeGenericCommand
  simp only [lookupMapOrReply, hlook, hlen]
  have hllen : toInt32 (mp.zsl.nodes.length : Int) = mp.zsl.nodes.length :=
    toInt32_eq (by omega) (by omega)
  rw [hllen]
  generalize hn : (mp.zsl.nodes.length : Int) = n at *
  have hn0 : 0 ≤ n := by omega
  have hs1 : (if start < 0 then toInt32 (n + start) else start) =
      (if start < 0 then n + start else start) := by
    split
    · exact toInt32_eq (by omega) (by omega)
    · rfl
  have he1 : (if end_ < 0 then toInt32 (n + end_) else end_) =
      (if end_ < 0 then n + end_ else end_) := by
    split
    · exact toInt32_eq (by omega) (by omega)
    · rfl
  simp only [hs1, he1]
  unfold resolveRank
  simp only []
  generalize hs1d : (if start < 0 then n + start else start) = s1
  generalize he1d : (if end_ < 0 then n + end_ else end_) = e1
  generalize hs2d : (if s1 < 0 then 0 else s1) = s2
  have hs1r : -2 ^ 31 ≤ s1 ∧ s1 < 2 ^ 31 := by rw [← hs1d]; split <;> omega
  have he1r : -2 ^ 31 ≤ e1 ∧ e1 < 2 ^ 31 := by rw [← he1d]; split <;> omega
  have hs2r : 0 ≤ s2 ∧ s2 < 2 ^ 31 := by rw [← hs2d]; split <;> omega
  by_cases hcond : s2 > e1 ∨ s2 ≥ n
  · simp only [hcond, if_true]
    rfl
  · simp only [hcond, if_false]
    have he2 : (if e1 ≥ n then toInt32 (n - 1) else e1) = (if e1 ≥ n then n - 1 else e1) := by
      split
      · exact toInt32_eq (by omega) (by omega)
      · rfl
    rw [he2]
    generalize he2d : (if e1 ≥ n then n - 1 else e1) = e2
    have he2r : s2 ≤ e2 ∧ e2 < n := by rw [← he2d]; split <;> omega
    have t1 : toInt32 (e2 - s2) = e2 - s2 := toInt32_eq (by omega) (by omega)
    have t2 : toInt32 (e2 - s2 + 1) = e2 - s2 + 1 := toInt32_eq (by omega) (by omega)
    have t3 : toInt32 (ws + wv) = ws + wv := by
      rcases hws with rfl | rfl <;> rcases hwv with rfl | rfl <;> decide
    have hln : (if rev ≠ 0 then
          (if s2 = 0 then zslTail mp.zsl
           else zslistTypeGetElementByRank mp.zsl (toULong (toInt32 (n - s2))))
        else
          (if s2 = 0 then zslFirst mp.zsl
           else zslistTypeGetElementByRank mp.zsl (toULong (toInt32 (s2 + 1))))) =
        nodeAt [] mp.zsl.nodes
          (if rev ≠ 0 then mp.zsl.nodes.length - 1 - s2.toNat else s2.toNat) := by
      by_cases hrev : rev ≠ 0
      · simp only [if_pos hrev]
        split
        · rename_i h0
          subst h0
          simp [zslTail]
        · rename_i h0
          have t5 : toInt32 (n - s2) = n - s2 := toInt32_eq (by omega) (by omega)
          have t6 : toULong (n - s2) = mp.zsl.nodes.length - 1 - s2.toNat + 1 := by
            unfold toULong
            omega
          simp [zslistTypeGetElementByRank, t5, t6]
      · simp only [if_neg hrev]
        split
        · rename_i h0
          subst h0
          rfl
        · rename_i h0
          have t5 : toInt32 (s2 + 1) = s2 + 1 := toInt32_eq (by omega) (by omega)
          have t6 : toULong (s2 + 1) = s2.toNat + 1 := by unfold toULong; omega
          simp [zslistTypeGetElementByRank, t5, t6]
    simp only [t1, t2, t3, hln]
    obtain ⟨p, hp, hd⟩ := trange_start mp.zsl.nodes rev s2.toNat (by omega)
    have hk : (e2 - s2 + 1).toNat = e2.toNat - s2.toNat + 1 := by omega
    have hk1 : ((e2.toNat - s2.toNat + 1 : Nat) : Int) = e2 - s2 + 1 := by omega
    rw [hp]
    by_cases hrev : rev ≠ 0
    · simp only [if_pos hrev] at hd ⊢
      have hplen : p.before.length + 1 = mp.zsl.nodes.length - s2.toNat := by
        have := congrArg List.length hd
        simpa using this
      rw [trangeLoop_backward _ _ _ hrev _ _ _ (by omega)]
      simp only [addReply, hd, hk, hk1, List.append_assoc, List.singleton_append]
    · have hrev0 : rev = 0 := by simpa using hrev
      subst hrev0
      simp only [ne_eq, not_true_eq_false, ↓reduceIte] at hd ⊢
      have hplen : p.after.length + 1 = mp.zsl.nodes.length - s2.toNat := by
        have := congrArg List.length hd
        simpa using this
      rw [trangeLoop_forward _ _ _ _ _ (by omega)]
      simp only [addReply, hd, hk, hk1, List.append_assoc, List.singleton_append]

/-- C17: with `reverse = 1`, `trangeGenericCommand` on a map of `n` entries
resolves `start` and `end` by the same rule as forward and replies with the
`end - start + 1` entries found at the descending indices `start..end`, that
is at the ranks `n-1-start` down to `n-1-end` of the chain, in descending
order; the reply is the one the forward range gives on the chain read from
the tail. -/
theorem trange_reverse_by_rank (c : redisClient) (mp : zset) (start end_ ws wv : Int)
    (hlook : lookupKey c.db (c.arg 1) = some (.map mp))
    (hlen : mp.zsl.length = mp.zsl.nodes.length)
    (hstart : -2 ^ 31 ≤ start ∧ start < 2 ^ 31) (hend : -2 ^ 31 ≤ end_ ∧ end_ < 2 ^ 31)
    (hws : ws = 0 ∨ ws = 1) (hwv : wv = 0 ∨ wv = 1)
    (hsmall : (mp.zsl.nodes.length : Int) < 2 ^ 31)
    (hhdr : (mp.zsl.nodes.length : Int) * (ws + wv) < 2 ^ 31) :
    trangeGenericCommand c start end_ ws wv 1 =
      .ok { c with reply := c.reply ++
        match resolveRank mp.zsl.nodes.length start end_ with
        | none => [Reply.emptymultibulk]
        | some (s, e) =>
          Reply.multiBulkLen (((e - s + 1 : Nat) : Int) * (ws + wv)) ::
            ((mp.zsl.nodes.reverse.drop s).take (e - s + 1)).flatMap (project ws wv) } ∧
    (∀ s e, resolveRank mp.zsl.nodes.length start end_ = some (s, e) →
      s ≤ e ∧ e < mp.zsl.nodes.length ∧
      ((mp.zsl.nodes.reverse.drop s).take (e - s + 1)).length = e - s + 1 ∧
      ∀ i, i < e - s + 1 →
        ((mp.zsl.nodes.reverse.drop s).take (e - s + 1))[i]? =
          mp.zsl.nodes[mp.zsl.nodes.length - 1 - s - i]?) ∧
    (trangeGenericCommand c start end_ ws wv 1).map (fun r => r.reply) =
      (trangeGenericCommand
        { c with db := dbSet c.db (c.arg 1) (.map (reverseChain mp)) }
        start end_ ws wv 0).map (fun r => r.reply) := by
  have hbounds : ∀ s e, resolveRank mp.zsl.nodes.length start end_ = some (s, e) →
      s ≤ e ∧ e < mp.zsl.nodes.length := by
    intro s e hse
    have := resolveRank_bounds (Int.natCast_nonneg _) hse
    omega
  have hhd : ∀ s e, resolveRank mp.zsl.nodes.length start end_ = some (s, e) →
      toInt32 (((e - s + 1 : Nat) : Int) * (ws + wv)) = ((e - s + 1 : Nat) : Int) * (ws + wv) := by
    intro s e hse
    obtain ⟨h1, h2⟩ := hbounds s e hse
    rcases hws with rfl | rfl <;> rcases hwv with rfl | rfl <;>
      exact toInt32_eq (by omega) (by omega)
  have hrev := trangeGeneric_reply c mp start end_ ws wv 1 hlook hlen hstart hend hws hwv hsmall
  have hfwd := trangeGeneric_reply
    { c with db := dbSet c.db (c.arg 1) (.map (reverseChain mp)) } (reverseChain mp)
    start end_ ws wv 0 (lookupKey_dbSet _ _ _)
    (by simp [reverseChain, hlen]) hstart hend hws hwv (by simpa [reverseChain] using hsmall)
  refine ⟨?_, ?_, ?_⟩
  · rw [hrev]
    cases hres : resolveRank mp.zsl.nodes.length start end_ with
    | none => rfl
    | some se =>
      obtain ⟨s, e⟩ := se
      simp only [hhd s e hres, ne_eq, one_ne_zero, not_false_eq_true, ↓reduceIte]
  · intro s e hse
    obtain ⟨h1, h2⟩ := hbounds s e hse
    refine ⟨h1, h2, ?_, ?_⟩
    · simp only [List.length_take, List.length_drop, List.length_reverse]
      omega
    · intro i hi
      rw [List.getElem?_take_of_lt hi, List.getElem?_drop, List.getElem?_reverse (by omega)]
      congr 1
      omega
  · rw [hrev, hfwd]
    simp [reverseChain, Except.map]

/-- The map `1:a 2:b 3:c` read in reverse with scores and values: `TRANGE`
with `reverse = 1` over `0..1` gives `3 c 2 b`, over `-1..-1` gives `1 a`. -/
theorem trange_reverse_by_rank_witness :
    trangeGenericCommand (clientOn mapABC ["trange", "k", "0", "1"]) 0 1 1 1 1 =
      .ok { clientOn mapABC ["trange", "k", "0", "1"] with
            reply := [.multiBulkLen 4, .double (.fin 3), .bulk "c",
                      .double (.fin 2), .bulk "b"] } ∧
    trangeGenericCommand (clientOn mapABC ["trange", "k", "-1", "-1"]) (-1) (-1) 0 1 1 =
      .ok { clientOn mapABC ["trange", "k", "-1", "-1"] with
            reply := [.multiBulkLen 1, .bulk "a"] } :=
  ⟨(trange_reverse_by_rank (clientOn mapABC ["trange", "k", "0", "1"]) mapABC 0 1 1 1
      (by decide) (by decide) (by decide) (by decide) (by decide) (by decide) (by decide)
      (by decide)).1.trans (by decide),
   (trange_reverse_by_rank (clientOn mapABC ["trange", "k", "-1", "-1"]) mapABC (-1) (-1) 0 1
      (by decide) (by decide) (by decide) (by decide) (by decide) (by decide) (by decide)
      (by decide)).1.trans (by decide)⟩

/-! ## Traversal safety of range by rank -/

theorem project_length (ws wv : Int) (hws : ws = 0 ∨ ws = 1) (hwv : wv = 0 ∨ wv = 1)
    (n : zskiplistNode) : ((project ws wv n).length : Int) = ws + wv := by
  rcases hws with rfl | rfl <;> rcases hwv with rfl | rfl <;> simp [project]

theorem flatMap_project_length (ws wv : Int) (hws : ws = 0 ∨ ws = 1) (hwv : wv = 0 ∨ wv = 1)
    (l : List zskiplistNode) :
    ((l.flatMap (project ws wv)).length : Int) = (l.length : Int) * (ws + wv) := by
  induction l with
  | nil => simp
  | cons x xs ih =>
    simp only [List.flatMap_cons, List.length_append, Nat.cast_add, ih,
      project_length ws wv hws hwv x, List.length_cons]
    ring

/-- C18: on a skip list whose `length` field is its number of nodes (and fits
the `int` it is read into), for every `int` `start` and `end`, both flags and
either direction, `trangeGenericCommand` does not dereference `NULL`: the
starting node exists, each of the `rangelen` rounds of the loop finds a node,
and the command returns; the reply is one multi-bulk header followed by the
items, and the length the header declares is the number of items whenever
the product `rangelen*(withscores+withvalues)` fits an `int`. -/
theorem trange_traversal_safe (c : redisClient) (mp : zset) (start end_ ws wv rev : Int)
    (hlook : lookupKey c.db (c.arg 1) = some (.map mp))
    (hlen : mp.zsl.length = mp.zsl.nodes.length)
    (hstart : -2 ^ 31 ≤ start ∧ start < 2 ^ 31) (hend : -2 ^ 31 ≤ end_ ∧ end_ < 2 ^ 31)
    (hws : ws = 0 ∨ ws = 1) (hwv : wv = 0 ∨ wv = 1)
    (hsmall : (mp.zsl.nodes.length : Int) < 2 ^ 31) :
    (∃ declared items,
      trangeGenericCommand c start end_ ws wv rev =
        .ok { c with reply := c.reply ++ Reply.multiBulkLen declared :: items } ∧
      ((mp.zsl.nodes.length : Int) * (ws + wv) < 2 ^ 31 → declared = items.length)) ∧
    (∀ s e, resolveRank mp.zsl.nodes.length start end_ = some (s, e) →
      ∃ ln, (if rev ≠ 0 then
              (if s = 0 then zslTail mp.zsl
               else zslistTypeGetElementByRank mp.zsl (mp.zsl.nodes.length - s))
            else
              (if s = 0 then zslFirst mp.zsl
               else zslistTypeGetElementByRank mp.zsl (s + 1))) = some ln ∧
        ∀ c1, ∃ c2, trangeLoop ws wv rev (e - s + 1) (some ln) c1 = .ok c2) := by
  have hbounds : ∀ s e, resolveRank mp.zsl.nodes.length start end_ = some (s, e) →
      s ≤ e ∧ e < mp.zsl.nodes.length := by
    intro s e hse
    have := resolveRank_bounds (Int.natCast_nonneg _) hse
    omega
  have hmain := trangeGeneric_reply c mp start end_ ws wv rev hlook hlen hstart hend hws hwv
    hsmall
  refine ⟨?_, ?_⟩
  · cases hres : resolveRank mp.zsl.nodes.length start end_ with
    | none =>
      refine ⟨0, [], ?_, fun _ => rfl⟩
      rw [hmain, hres]
      rfl
    | some se =>
      obtain ⟨s, e⟩ := se
      obtain ⟨h1, h2⟩ := hbounds s e hres
      refine ⟨toInt32 (((e - s + 1 : Nat) : Int) * (ws + wv)),
        (((if rev ≠ 0 then mp.zsl.nodes.reverse else mp.zsl.nodes).drop s).take
          (e - s + 1)).flatMap (project ws wv), ?_, ?_⟩
      · rw [hmain, hres]
      · intro hhdr
        have hcount : ((((if rev ≠ 0 then mp.zsl.nodes.reverse else mp.zsl.nodes).drop s).take
            (e - s + 1)).length : Int) = ((e - s + 1 : Nat) : Int) := by
          congr 1
          by_cases hrev : rev ≠ 0
          · simp only [if_pos hrev, List.length_take, List.length_drop, List.length_reverse]
            omega
          · simp only [if_neg hrev, List.length_take, List.length_drop]
            omega
        rw [flatMap_project_length ws wv hws hwv, hcount]
        rcases hws with rfl | rfl <;> rcases hwv with rfl | rfl <;>
          exact toInt32_eq (by omega) (by omega)
  · intro s e hse
    obtain ⟨h1, h2⟩ := hbounds s e hse
    obtain ⟨p, hp, hd⟩ := trange_start mp.zsl.nodes rev s (by omega)
    have hptr : (if rev ≠ 0 then
          (if s = 0 then zslTail mp.zsl
           else zslistTypeGetElementByRank mp.zsl (mp.zsl.nodes.length - s))
        else
          (if s = 0 then zslFirst mp.zsl
           else zslistTypeGetElementByRank mp.zsl (s + 1))) = some p := by
      rw [← hp]
      by_cases hrev : rev ≠ 0
      · simp only [if_pos hrev]
        split
        · rename_i h0
          subst h0
          simp [zslTail]
        · rename_i h0
          have hne : mp.zsl.nodes.length - s ≠ 0 := by omega
          have hidx : mp.zsl.nodes.length - s - 1 = mp.zsl.nodes.length - 1 - s := by omega
          simp [zslistTypeGetElementByRank, hne, hidx]
      · simp only [if_neg hrev]
        split
        · rename_i h0
          subst h0
          rfl
        · simp [zslistTypeGetElementByRank]
    refine ⟨p, hptr, ?_⟩
    intro c1
    by_cases hrev : rev ≠ 0
    · simp only [if_pos hrev] at hd
      have hplen : p.before.length + 1 = mp.zsl.nodes.length - s := by
        have := congrArg List.length hd
        simpa using this
      exact ⟨_, trangeLoop_backward ws wv rev hrev _ p c1 (by omega)⟩
    · have hrev0 : rev = 0 := by simpa using hrev
      subst hrev0
      simp only [ne_eq, not_true_eq_false, ↓reduceIte] at hd
      have hplen : p.after.length + 1 = mp.zsl.nodes.length - s := by
        have := congrArg List.length hd
        simpa using this
      exact ⟨_, trangeLoop_forward ws wv _ p c1 (by omega)⟩

/-- On `1:a 2:b 3:c`, reverse range `0..-1` with scores and values: the
command returns, with a header of 6 and 6 items. -/
theorem trange_traversal_safe_witness :
    ∃ declared items,
      trangeGenericCommand (clientOn mapABC ["trange", "k", "0", "-1"]) 0 (-1) 1 1 1 =
        .ok { clientOn mapABC ["trange", "k", "0", "-1"] with
              reply := [] ++ Reply.multiBulkLen declared :: items } ∧
      declared = items.length :=
  (trange_traversal_safe (clientOn mapABC ["trange", "k", "0", "-1"]) mapABC 0 (-1) 1 1 1
    (by decide) (by decide) (by decide) (by decide) (by decide) (by decide)
    (by decide)).1.elim fun declared hx => hx.elim fun items hy =>
      ⟨declared, items, hy.1, hy.2 (by decide)⟩

/-! ## Narrowing of the rank arguments -/

/-- C19: `TRANGE k 4294967296 -1` on the map `1:a 2:b 3:c`: the `long` start
2^32 becomes 0 in the `int` parameter of `trangeGenericCommand`, so the whole
map is emitted, while the resolution rule on the value as parsed gives the
empty range (`start ≥ length`). -/
theorem trange_narrows_long_to_int :
    decimalHost.getLongFromObject "4294967296" = some (2 ^ 32) ∧
    toInt32 (2 ^ 32) = 0 ∧
    resolveRank 3 (2 ^ 32) (-1) = none ∧
    (trangeCommand decimalHost (clientOn mapABC ["trange", "k", "4294967296", "-1"])).map
        (fun c => c.reply) =
      .ok [.multiBulkLen 3, .bulk "a", .bulk "b", .bulk "c"] := by
  decide

/-! ## Reference counts -/

theorem trangeLoopRefs_all_incr (wv rev : Int) (k : Nat) (ln : Option nodePtr) :
    (trangeLoopRefs wv rev k ln).all RefOp.isIncr = true := by
  induction k generalizing ln with
  | zero => cases ln <;> simp [trangeLoopRefs]
  | succ k ih =>
    cases ln with
    | none => simp [trangeLoopRefs]
    | some p =>
      unfold trangeLoopRefs
      rw [List.all_append, ih]
      split <;> simp [RefOp.isIncr]

theorem trangebyscoreLoopRefs_all_incr (range : zrangespec) (jc wv : Int)
    (l : List zskiplistNode) :
    (trangebyscoreLoopRefs range jc wv l).all RefOp.isIncr = true := by
  induction l with
  | nil => simp [trangebyscoreLoopRefs]
  | cons x xs ih =>
    unfold trangebyscoreLoopRefs
    cases (if range.maxex ≠ 0 then x.score.ge range.max else x.score.gt range.max) with
    | true => simp
    | false =>
      simp only [Bool.false_eq_true, if_false]
      rw [List.all_append, ih]
      split <;> simp [RefOp.isIncr]

/-- C20: with `addReplyBulk` leaving the count as it found it, `tgetCommand`
is balanced (increment, then decrement), but the reply loops of
`trangeGenericCommand` and `trangebyscoreGenericCommand` only ever increment:
`incrRefCount(value)` comes before each `addReplyBulk(c,value)` and no
`decrRefCount` follows, so every value emitted ends one reference up, e.g.
`a`, `b` and `c` after `TRANGE k 0 -1` on `1:a 2:b 3:c`. `mapTypeSet` takes
the value twice on insert and, on update, releases the old value twice and
takes the new one twice. -/
theorem range_replies_leave_references_behind :
    tgetCommandRefs (clientOn mapABC ["tget", "k", "2"]) = [.incr "b", .decr "b"] ∧
    refDelta "b" (tgetCommandRefs (clientOn mapABC ["tget", "k", "2"])) = 0 ∧
    trangeLoopRefs 1 0 3 (zslFirst mapABC.zsl) = [.incr "a", .incr "b", .incr "c"] ∧
    refDelta "a" (trangeLoopRefs 1 0 3 (zslFirst mapABC.zsl)) = 1 ∧
    trangebyscoreLoopRefs { min := .ninf, max := .pinf, minex := 0, maxex := 0 } 0 1
        mapABC.zsl.nodes = [.incr "a", .incr "b", .incr "c"] ∧
    (∀ (wv rev : Int) (k : Nat) (ln : Option nodePtr),
      (trangeLoopRefs wv rev k ln).all RefOp.isIncr = true) ∧
    (∀ (range : zrangespec) (jc wv : Int) (l : List zskiplistNode),
      (trangebyscoreLoopRefs range jc wv l).all RefOp.isIncr = true) ∧
    mapTypeSetRefs mapABC (.fin 4) "4" "d" = [.incr "d", .incr "4", .incr "d"] ∧
    refDelta "d" (mapTypeSetRefs mapABC (.fin 4) "4" "d") = 2 ∧
    mapTypeSetRefs mapABC (.fin 2) "2" "z" = [.decr "b", .incr "z", .decr "b", .incr "z"] ∧
    refDelta "z" (mapTypeSetRefs mapABC (.fin 2) "2" "z") = 2 ∧
    refDelta "b" (mapTypeSetRefs mapABC (.fin 2) "2" "z") = -2 := by
  refine ⟨by decide, by decide, by decide, by decide, by decide, trangeLoopRefs_all_incr,
    trangebyscoreLoopRefs_all_incr, by decide, by decide, by decide, by decide, by decide⟩

end TMap
